import Mathlib

/-!
Verification of the equirectangular-tiles adapter of Photo-Sphere-Viewer:
the grid geometry (`__getAdjacentTiles`), the visibility candidate merge
(`__refresh`), the configuration validation (`loadTexture`) and the
concurrency-limited tile scheduler (`Queue.js` together with `__loadTiles`
and `__drawTile`), embedded as executable Lean definitions, with the
documented invariants proved or refuted.
-/

namespace PSVTiles

/-! ## Grid geometry (src/adapters/equirectangular-tiles/index.js, __getAdjacentTiles) -/

structure Tile where
  col : Int
  row : Int
deriving DecidableEq, Repr

/-- The per-neighbour wrap of `__getAdjacentTiles`: pole reflection with
hemisphere shift for out-of-range rows, then a single-step column wrap. -/
def wrapTile (cols rows : Int) (t : Tile) : Tile :=
  let t1 :=
    if t.row < 0 then
      -- wrap on top: -1 => 0, -2 => 1; change hemisphere
      { col := t.col + cols / 2, row := -t.row - 1 }
    else if t.row ≥ rows then
      -- wrap on bottom: rows => rows-1; change hemisphere
      { col := t.col + cols / 2, row := (rows - 1) - (t.row - rows) }
    else t
  if t1.col < 0 then
    -- wrap on left: -1 => cols-1
    { col := t1.col + cols, row := t1.row }
  else if t1.col ≥ cols then
    -- wrap on right: cols => 0
    { col := t1.col - cols, row := t1.row }
  else t1

/-- `__getAdjacentTiles(col, row)`: the four tiles whose top-left corners are
`(col-1,row-1), (col,row-1), (col,row), (col-1,row)`, each wrapped. -/
def getAdjacentTiles (cols rows col row : Int) : List Tile :=
  [ { col := col - 1, row := row - 1 },
    { col := col,     row := row - 1 },
    { col := col,     row := row },
    { col := col - 1, row := row } ].map (wrapTile cols rows)

/-- The wrap rule as the spec words it: reflect at the poles with a hemisphere
shift of `cols/2`, then reduce the column modulo `cols` into `[0, cols)`. -/
def wrapTileSpec (cols rows : Int) (t : Tile) : Tile :=
  let t1 :=
    if t.row < 0 then
      { col := t.col + cols / 2, row := -t.row - 1 }
    else if t.row ≥ rows then
      { col := t.col + cols / 2, row := (rows - 1) - (t.row - rows) }
    else t
  { col := t1.col % cols, row := t1.row }

/-! ## Visibility candidate merge (index.js, __refresh inner loop) -/

structure Candidate where
  col : Int
  row : Int
  angle : Int
deriving DecidableEq, Repr

/-- One step of the `__refresh` merge: look the tile up in `tilesToLoad`
(first match, as `Array.find` does); on a hit keep the minimum angle,
otherwise push a fresh candidate. -/
def addTileCandidate : List Candidate → Tile → Int → List Candidate
  | [], t, a => [{ col := t.col, row := t.row, angle := a }]
  | c :: cs, t, a =>
    if c.row = t.row ∧ c.col = t.col then
      { c with angle := min c.angle a } :: cs
    else
      c :: addTileCandidate cs t a

/-- The candidate list built by `__refresh` from the visible sample points:
each sample `((col, row), angle)` contributes its four adjacent tiles, merged
by tile id keeping the minimum angle.  The geometric visibility test (dot
product and screen projection) is external floating-point code; the samples
list is exactly the subsequence of lattice points that passed it, in loop
order, with the angle computed for each. -/
def refreshCandidates (cols rows : Int) (samples : List ((Int × Int) × Int)) :
    List Candidate :=
  samples.foldl
    (fun acc s =>
      (getAdjacentTiles cols rows s.1.1 s.1.2).foldl
        (fun acc2 t => addTileCandidate acc2 t s.2) acc)
    []

/-- The samples whose four adjacent tiles contain the given tile position. -/
def producingAngles (cols rows : Int) (samples : List ((Int × Int) × Int))
    (col row : Int) : List Int :=
  (samples.filter
    (fun s => decide ((⟨col, row⟩ : Tile) ∈ getAdjacentTiles cols rows s.1.1 s.1.2))).map
    (·.2)

/-- First candidate stored for the given tile position
(`tilesToLoad.find(c => c.row === tile.row && c.col === tile.col)`). -/
def findCand (l : List Candidate) (col row : Int) : Option Candidate :=
  l.find? (fun c => decide (c.row = row ∧ c.col = col))

/-- The tile positions of a candidate list. -/
def candKeys (l : List Candidate) : List (Int × Int) :=
  l.map (fun c => (c.col, c.row))

/-! ## Configuration validation (index.js, loadTexture) -/

/-- The panorama configuration as `loadTexture` receives it.  Numeric fields
are `Option Int` so that both a missing field and a present value can be
modelled; `isObject` is the `typeof panorama !== 'object'` test and
`hasTileUrl` the truthiness of the `tileUrl` field. -/
structure PanoConfig where
  isObject : Bool
  width : Option Int
  cols : Option Int
  rows : Option Int
  hasTileUrl : Bool
deriving DecidableEq, Repr

/-- JavaScript truthiness of a numeric field: absent (`undefined`) and `0`
are falsy. -/
def truthyNum : Option Int → Bool
  | none => false
  | some n => decide (n ≠ 0)

/-- The validation performed at the top of `loadTexture`, returning the
rejection message when the configuration is refused. -/
def validatePanorama (p : PanoConfig) : Option String :=
  if ¬ p.isObject ∨ truthyNum p.width = false ∨ truthyNum p.cols = false
      ∨ truthyNum p.rows = false ∨ ¬ p.hasTileUrl then
    some "Invalid panorama configuration, are you using the right adapter?."
  else if p.cols.getD 0 % 4 ≠ 0 ∨ p.rows.getD 0 % 2 ≠ 0 then
    some "Panorama cols must be multiple of 4 and rows must be multiple of 2."
  else
    none

/-- The invalidity condition as the spec words it: not an object, lacking
(absent or falsy) width, cols, rows or tileUrl, or cols not a multiple of 4,
or rows not a multiple of 2. -/
def specInvalid (p : PanoConfig) : Prop :=
  p.isObject = false ∨ p.width = none ∨ p.width = some 0
    ∨ p.cols = none ∨ p.cols = some 0 ∨ p.rows = none ∨ p.rows = some 0
    ∨ p.hasTileUrl = false
    ∨ ¬ (4 ∣ p.cols.getD 0) ∨ ¬ (2 ∣ p.rows.getD 0)

instance (p : PanoConfig) : Decidable (specInvalid p) := by
  unfold specInvalid; infer_instance

/-! ## Task scheduler (Queue.js together with __loadTiles / __drawTile)

Task objects are mutable and shared between the queue's maps and the
completion closures, so they live in an explicit heap addressed by allocation
order (`nextRef`).  The JavaScript objects `queue.tasks` and
`queue.runningTasks` are string-keyed insertion-ordered maps; here
`tasks` is the list of heap references in key-insertion order (tile ids such
as "3x4" are never array indices, so JS preserves insertion order) and
`runningTasks` the list of keys of the running map. -/

inductive Status where
  | pending
  | running
  | cancelled
  | done
  | error
deriving DecidableEq, Repr

structure TaskObj where
  id : String
  priority : Int
  status : Status
deriving DecidableEq, Repr

abbrev Heap := List (Nat × TaskObj)

def hget (h : Heap) (r : Nat) : Option TaskObj :=
  (h.find? (fun p => decide (p.1 = r))).map (·.2)

def hmodify (h : Heap) (r : Nat) (f : TaskObj → TaskObj) : Heap :=
  h.map (fun p => (p.1, if p.1 = r then f p.2 else p.2))

structure QState where
  heap : Heap
  nextRef : Nat
  tasks : List Nat
  runningTasks : List String
  inflight : List Nat
  concurency : Nat
  tilesProp : List String
  drawLog : List (String × Bool)
deriving DecidableEq, Repr

def idAt (s : QState) (r : Nat) : Option String := (hget s.heap r).map (·.id)

def statusAt (s : QState) (r : Nat) : Option Status := (hget s.heap r).map (·.status)

def taskIds (s : QState) : List String := s.tasks.filterMap (idAt s)

def countRunning (s : QState) : Nat :=
  (s.heap.filter (fun p => decide (p.2.status = .running))).length

/-- Number of task objects ever created for a given tile id. -/
def heapCountId (s : QState) (i : String) : Nat :=
  (s.heap.filter (fun p => decide (p.2.id = i))).length

/-- `Queue.enqueue`: `this.tasks[task.id] = task`.  A keyed map assignment
replaces the entry of an existing key in place (keeping its position) and
appends a new key at the end. -/
def qenqueue (s : QState) (i : String) (p : Int) : QState :=
  let r := s.nextRef
  let tasks' :=
    if s.tasks.any (fun r' => idAt s r' == some i) then
      s.tasks.map (fun r' => if idAt s r' == some i then r else r')
    else s.tasks ++ [r]
  { s with
    heap := (r, { id := i, priority := p, status := .pending }) :: s.heap
    nextRef := r + 1
    tasks := tasks' }

/-- `Queue.setPriority`: update the priority of the task currently stored at
the given id, if any. -/
def qsetPriority (s : QState) (i : String) (p : Int) : QState :=
  match s.tasks.find? (fun r => idAt s r == some i) with
  | some r => { s with heap := hmodify s.heap r (fun t => { t with priority := p }) }
  | none => s

/-- `Queue.setAllPriorities` with the default argument `0`. -/
def qsetAllPriorities (s : QState) : QState :=
  { s with
    heap := s.tasks.foldl (fun h r => hmodify h r (fun t => { t with priority := 0 })) s.heap }

/-- `Queue.clear`: snapshot `Object.values(this.tasks)`, empty both maps,
then cancel every snapshotted task (in this order, so a completion callback
re-entering `start` sees the cleared maps). -/
def qclear (s : QState) : QState :=
  { s with
    tasks := []
    runningTasks := []
    heap := s.tasks.foldl (fun h r => hmodify h r (fun t => { t with status := .cancelled })) s.heap }

/-- `Object.values(this.tasks)` paired with their heap references. -/
def qvalues (s : QState) : List (Nat × TaskObj) :=
  s.tasks.filterMap (fun r => (hget s.heap r).map (fun t => (r, t)))

/-- The `filter` of `Queue.start`: pending status and strictly positive
priority. -/
def elig (rt : Nat × TaskObj) : Bool :=
  decide (rt.2.status = .pending) && decide (0 < rt.2.priority)

/-- `filter(...).sort((a, b) => a.priority - b.priority).pop()`: the stable
ascending sort followed by `pop` yields the element of maximal priority,
taking the latest one in insertion order on ties; equivalently a left fold
keeping the current best and replacing it whenever a later element's priority
is greater or equal. -/
def pickStep (best : Option (Nat × TaskObj)) (rt : Nat × TaskObj) :
    Option (Nat × TaskObj) :=
  match best with
  | none => some rt
  | some b => if b.2.priority ≤ rt.2.priority then some rt else some b

def pickBest (l : List (Nat × TaskObj)) : Option (Nat × TaskObj) :=
  l.foldl pickStep none

def selectNext (s : QState) : Option (Nat × TaskObj) :=
  pickBest ((qvalues s).filter elig)

/-- One selection of `Queue.start`: record the id in `runningTasks`, set the
task's status to RUNNING (`Task.start`), and begin its fetch (the task joins
the in-flight set, whose settlement is a later `settle` event). -/
def startStep (s : QState) (rt : Nat × TaskObj) : QState :=
  { s with
    runningTasks :=
      if rt.2.id ∈ s.runningTasks then s.runningTasks else s.runningTasks ++ [rt.2.id]
    heap := hmodify s.heap rt.1 (fun t => { t with status := .running })
    inflight := rt.1 :: s.inflight }

/-- The synchronous recursion of `Queue.start` (`this.start()` at the end of
the selection branch): keep starting tasks until the concurrency cap is
reached or no eligible task remains.  Each iteration turns an eligible
pending task into a running one, so `tasks.length + 1` fuel always reaches
the fixpoint. -/
def qstartAux : Nat → QState → QState
  | 0, s => s
  | fuel + 1, s =>
    if s.concurency ≤ s.runningTasks.length then s
    else
      match selectNext s with
      | none => s
      | some rt => qstartAux fuel (startStep s rt)

def qstart (s : QState) : QState := qstartAux (s.tasks.length + 1) s

/-- Settlement of an in-flight task's fetch, i.e. the promise callbacks of
`Task.start` and `Queue.start` running back to back (microtasks, so nothing
interleaves).  `__drawTile` draws the decoded image on success and, in its
`catch`, draws the error placeholder on failure — in both cases the promise
it returns fulfils, so `Task.start` records DONE (the ERROR status is
unreachable through this adapter).  Then the `Queue.start` callback deletes
the task's id from both maps and re-invokes `start`.  `drawLog` records the
draw effect performed (tile id, fetch success). -/
def settle (s : QState) (r : Nat) (fetchOk : Bool) : QState :=
  if r ∈ s.inflight then
    match hget s.heap r with
    | none => s
    | some t =>
      let s1 : QState :=
        { s with
          drawLog := s.drawLog ++ [(t.id, fetchOk)]
          heap := hmodify s.heap r (fun u => { u with status := .done })
          inflight := s.inflight.erase r
          tasks := s.tasks.filter (fun r' => !(idAt s r' == some t.id))
          runningTasks := s.runningTasks.filter (fun i => i != t.id) }
      qstart s1
  else s

/-- One candidate of `__loadTiles`: an already-known tile (per
`this.props.tiles`) only has its priority updated, an unknown one is recorded
and enqueued as a fresh pending task. -/
def submitOne (s : QState) (ti : String × Int) : QState :=
  if ti.1 ∈ s.tilesProp then qsetPriority s ti.1 ti.2
  else qenqueue { s with tilesProp := s.tilesProp ++ [ti.1] } ti.1 ti.2

/-- `__loadTiles`: demote every known task's priority to 0, process the
candidate list (ids with their priorities `π/2 − angle`, abstracted as
integers since only order and sign matter to the queue), then `queue.start`. -/
def applySubmit (s : QState) (ts : List (String × Int)) : QState :=
  qstart (ts.foldl submitOne (qsetAllPriorities s))

/-- The events driving the scheduler: a visibility refresh submitting a
candidate list, the settlement of an in-flight fetch, and the reset a
successful `loadTexture` performs (`queue.clear()` and `props.tiles = {}`). -/
inductive AEvent where
  | submit (ts : List (String × Int))
  | settle (r : Nat) (fetchOk : Bool)
  | reset
deriving DecidableEq, Repr

def stepEv (s : QState) : AEvent → QState
  | .submit ts => applySubmit s ts
  | .settle r ok => settle s r ok
  | .reset => { qclear s with tilesProp := [] }

/-- The adapter's initial scheduler state: `new Queue(QUEUE_CONCURENCY)` with
`QUEUE_CONCURENCY = 2` and an empty `props.tiles`. -/
def initState : QState :=
  { heap := [], nextRef := 0, tasks := [], runningTasks := [], inflight := []
    concurency := 2, tilesProp := [], drawLog := [] }

def run (evs : List AEvent) : QState := evs.foldl stepEv initState

/-- `loadTexture`: validation first; a rejection happens before any state is
touched, a success resets the scheduler state (the canvas and texture
rebuilds are external DOM work). -/
def loadTexture (s : QState) (p : PanoConfig) : Except String QState :=
  match validatePanorama p with
  | some e => .error e
  | none => .ok { qclear s with tilesProp := [] }

/-- `(id, status)` view of a task; priority-only updates preserve it. -/
def siFun (t : TaskObj) : String × Status := (t.id, t.status)

/-- Heap-level running count: the number of task objects whose status is
RUNNING. -/
def countRunningH (h : Heap) : Nat :=
  (h.filter (fun p => decide (p.2.status = .running))).length

/-- `(key, id, status)` view of a heap entry. -/
def tripleFun (p : Nat × TaskObj) : Nat × String × Status := (p.1, p.2.id, p.2.status)

/-- Invariant of every reachable scheduler state. -/
structure Inv (s : QState) : Prop where
  refsNd : (s.heap.map (·.1)).Nodup
  refsLt : ∀ r ∈ s.heap.map (·.1), r < s.nextRef
  taskSubH : ∀ r ∈ s.tasks, ∃ t, hget s.heap r = some t
  tStat : ∀ r ∈ s.tasks, ∀ t, hget s.heap r = some t →
    t.status = .pending ∨ t.status = .running
  tIdsNd : (taskIds s).Nodup
  tIdsSub : ∀ i ∈ taskIds s, i ∈ s.tilesProp
  inflSub : ∀ r ∈ s.inflight, ∃ t, hget s.heap r = some t
  inflNd : s.inflight.Nodup
  inflStat : ∀ r ∈ s.inflight, ∀ t, hget s.heap r = some t →
    t.status = .running ∨ t.status = .cancelled

/-- Strengthened invariant holding as long as no `reset` (new `loadTexture`)
occurs: within one panorama load, task ids are globally unique, nothing is
ever cancelled, and the running bookkeeping is exact. -/
structure InvNR (s : QState) : Prop where
  base : Inv s
  idsNd : (s.heap.map (·.2.id)).Nodup
  idsSub : ∀ i ∈ s.heap.map (·.2.id), i ∈ s.tilesProp
  noCancel : ∀ p ∈ s.heap, p.2.status ≠ Status.cancelled
  inflIff : ∀ r, r ∈ s.inflight ↔ ∃ p ∈ s.heap, p.1 = r ∧ p.2.status = Status.running
  rtIff : ∀ i, i ∈ s.runningTasks ↔ ∃ p ∈ s.heap, p.2.id = i ∧ p.2.status = Status.running
  rtNd : s.runningTasks.Nodup
  rtLen : s.runningTasks.length = countRunning s
  rtCap : s.runningTasks.length ≤ s.concurency
  conc : s.concurency = 2

end PSVTiles

namespace PSVTiles

/-! ## Basic heap lemmas -/

theorem hget_cons (k : Nat) (t : TaskObj) (h : Heap) (r : Nat) :
    hget ((k, t) :: h) r = if k = r then some t else hget h r := by
  simp only [hget, List.find?]
  by_cases hk : k = r <;> simp [hk]

theorem hget_hmodify (h : Heap) (k : Nat) (f : TaskObj → TaskObj) (r : Nat) :
    hget (hmodify h k f) r = if r = k then (hget h r).map f else hget h r := by
  induction h with
  | nil => simp [hget, hmodify]
  | cons p tl ih =>
    rcases p with ⟨k', t'⟩
    have htl : List.map (fun p => (p.1, if p.1 = k then f p.2 else p.2)) tl = hmodify tl k f := rfl
    simp only [hmodify, List.map_cons]
    rw [hget_cons, hget_cons, htl, ih]
    by_cases hkr : k' = r
    · subst hkr
      by_cases hrk : k' = k <;> simp [hrk]
    · simp [hkr]

theorem hmodify_keys (h : Heap) (k : Nat) (f : TaskObj → TaskObj) :
    (hmodify h k f).map (·.1) = h.map (·.1) := by
  simp [hmodify, List.map_map]

theorem hmodify_ids (h : Heap) (k : Nat) (f : TaskObj → TaskObj)
    (hf : ∀ t, (f t).id = t.id) :
    (hmodify h k f).map (·.2.id) = h.map (·.2.id) := by
  simp only [hmodify, List.map_map]
  apply List.map_congr_left
  intro p _
  by_cases hk : p.1 = k <;> simp [hk, hf]

theorem hmodify_statuses (h : Heap) (k : Nat) (f : TaskObj → TaskObj)
    (hf : ∀ t, (f t).status = t.status) :
    (hmodify h k f).map (·.2.status) = h.map (·.2.status) := by
  simp only [hmodify, List.map_map]
  apply List.map_congr_left
  intro p _
  by_cases hk : p.1 = k <;> simp [hk, hf]

theorem mem_hmodify {h : Heap} {k : Nat} {f : TaskObj → TaskObj} {p : Nat × TaskObj} :
    p ∈ hmodify h k f ↔ ∃ q ∈ h, p = (q.1, if q.1 = k then f q.2 else q.2) := by
  simp only [hmodify, List.mem_map]
  constructor
  · rintro ⟨q, hq, rfl⟩; exact ⟨q, hq, rfl⟩
  · rintro ⟨q, hq, rfl⟩; exact ⟨q, hq, rfl⟩

theorem hget_isSome_iff (h : Heap) (r : Nat) :
    (hget h r).isSome ↔ r ∈ h.map (·.1) := by
  induction h with
  | nil => simp [hget]
  | cons p tl ih =>
    rcases p with ⟨k, t⟩
    rw [List.map_cons, hget_cons]
    by_cases hk : k = r
    · simp [hk]
    · simp only [if_neg hk, ih, List.mem_cons]
      constructor
      · intro h1; exact Or.inr h1
      · rintro (h1 | h1)
        · exact absurd h1.symm hk
        · exact h1

theorem hget_mem {h : Heap} {r : Nat} {t : TaskObj} (hg : hget h r = some t) :
    (r, t) ∈ h := by
  induction h with
  | nil => simp [hget] at hg
  | cons p tl ih =>
    rcases p with ⟨k, u⟩
    rw [hget_cons] at hg
    by_cases hk : k = r
    · subst hk
      rw [if_pos rfl, Option.some.injEq] at hg
      subst hg; exact List.mem_cons_self _ _
    · rw [if_neg hk] at hg
      exact List.mem_cons_of_mem _ (ih hg)

theorem mem_hget {h : Heap} {r : Nat} {t : TaskObj}
    (hnd : (h.map (·.1)).Nodup) (hm : (r, t) ∈ h) : hget h r = some t := by
  induction h with
  | nil => simp at hm
  | cons p tl ih =>
    rcases p with ⟨k, u⟩
    rw [List.map_cons, List.nodup_cons] at hnd
    rw [hget_cons]
    rcases List.mem_cons.1 hm with h1 | h1
    · cases h1; simp
    · have hkr : k ≠ r := by
        intro hk; subst hk
        exact hnd.1 (List.mem_map.2 ⟨(k, t), h1, rfl⟩)
      rw [if_neg hkr]
      exact ih hnd.2 h1

theorem hget_foldMod_not_mem {f : TaskObj → TaskObj} {r : Nat} :
    ∀ (rs : List Nat) (h : Heap), r ∉ rs →
      hget (rs.foldl (fun h' k => hmodify h' k f) h) r = hget h r := by
  intro rs
  induction rs with
  | nil => intro h _; rfl
  | cons k tl ih =>
    intro h hr
    simp only [List.mem_cons, not_or] at hr
    rw [List.foldl_cons, ih _ hr.2, hget_hmodify, if_neg hr.1]

theorem hget_foldMod_mem {f : TaskObj → TaskObj} (hf : ∀ t, f (f t) = f t) {r : Nat} :
    ∀ (rs : List Nat) (h : Heap), r ∈ rs →
      hget (rs.foldl (fun h' k => hmodify h' k f) h) r = (hget h r).map f := by
  intro rs
  induction rs with
  | nil => intro h hr; simp at hr
  | cons k tl ih =>
    intro h hr
    rw [List.foldl_cons]
    by_cases hmem : r ∈ tl
    · rw [ih _ hmem, hget_hmodify]
      by_cases hrk : r = k
      · subst hrk
        rw [if_pos rfl, Option.map_map]
        cases hget h r <;> simp [hf]
      · rw [if_neg hrk]
    · have hrk : r = k := by
        rcases List.mem_cons.1 hr with h1 | h1
        · exact h1
        · exact absurd h1 hmem
      subst hrk
      rw [hget_foldMod_not_mem _ _ hmem, hget_hmodify, if_pos rfl]

theorem foldMod_keys {f : TaskObj → TaskObj} :
    ∀ (rs : List Nat) (h : Heap),
      ((rs.foldl (fun h' k => hmodify h' k f) h).map (·.1)) = h.map (·.1) := by
  intro rs
  induction rs with
  | nil => intro h; rfl
  | cons k tl ih => intro h; rw [List.foldl_cons, ih, hmodify_keys]

theorem foldMod_ids {f : TaskObj → TaskObj} (hf : ∀ t, (f t).id = t.id) :
    ∀ (rs : List Nat) (h : Heap),
      ((rs.foldl (fun h' k => hmodify h' k f) h).map (·.2.id)) = h.map (·.2.id) := by
  intro rs
  induction rs with
  | nil => intro h; rfl
  | cons k tl ih => intro h; rw [List.foldl_cons, ih, hmodify_ids _ _ _ hf]

theorem foldMod_statuses {f : TaskObj → TaskObj} (hf : ∀ t, (f t).status = t.status) :
    ∀ (rs : List Nat) (h : Heap),
      ((rs.foldl (fun h' k => hmodify h' k f) h).map (·.2.status)) = h.map (·.2.status) := by
  intro rs
  induction rs with
  | nil => intro h; rfl
  | cons k tl ih => intro h; rw [List.foldl_cons, ih, hmodify_statuses _ _ _ hf]

end PSVTiles

namespace PSVTiles

/-! ## Selection lemmas -/

theorem pickBest_go (l : List (Nat × TaskObj)) :
    ∀ b : Nat × TaskObj,
      ∃ rt, l.foldl pickStep (some b) = some rt
        ∧ (rt = b ∨ rt ∈ l) ∧ b.2.priority ≤ rt.2.priority
        ∧ ∀ x ∈ l, x.2.priority ≤ rt.2.priority := by
  induction l with
  | nil => intro b; exact ⟨b, rfl, Or.inl rfl, le_refl _, by simp⟩
  | cons x tl ih =>
    intro b
    rw [List.foldl_cons]
    by_cases hbx : b.2.priority ≤ x.2.priority
    · rw [show pickStep (some b) x = some x from by rw [pickStep, if_pos hbx]]
      obtain ⟨rt, hfold, hmem, hle, hall⟩ := ih x
      refine ⟨rt, hfold, ?_, le_trans hbx hle, ?_⟩
      · rcases hmem with h1 | h1
        · exact Or.inr (h1 ▸ List.mem_cons_self _ _)
        · exact Or.inr (List.mem_cons_of_mem _ h1)
      · intro y hy
        rcases List.mem_cons.1 hy with h1 | h1
        · exact h1 ▸ hle
        · exact hall y h1
    · rw [show pickStep (some b) x = some b from by rw [pickStep, if_neg hbx]]
      obtain ⟨rt, hfold, hmem, hle, hall⟩ := ih b
      refine ⟨rt, hfold, ?_, hle, ?_⟩
      · rcases hmem with h1 | h1
        · exact Or.inl h1
        · exact Or.inr (List.mem_cons_of_mem _ h1)
      · intro y hy
        rcases List.mem_cons.1 hy with h1 | h1
        · subst h1; exact le_trans (le_of_lt (lt_of_not_le hbx)) hle
        · exact hall y h1

theorem pickBest_spec {l : List (Nat × TaskObj)} {rt : Nat × TaskObj}
    (h : pickBest l = some rt) :
    rt ∈ l ∧ ∀ x ∈ l, x.2.priority ≤ rt.2.priority := by
  cases l with
  | nil => simp [pickBest] at h
  | cons x tl =>
    rw [pickBest, List.foldl_cons, show pickStep none x = some x from rfl] at h
    obtain ⟨rt', hfold, hmem, hle, hall⟩ := pickBest_go tl x
    rw [hfold] at h
    have hrt : rt' = rt := Option.some.inj h
    subst hrt
    refine ⟨?_, ?_⟩
    · rcases hmem with h1 | h1
      · exact h1 ▸ List.mem_cons_self _ _
      · exact List.mem_cons_of_mem _ h1
    · intro y hy
      rcases List.mem_cons.1 hy with h1 | h1
      · exact h1 ▸ hle
      · exact hall y h1

theorem pickBest_eq_none {l : List (Nat × TaskObj)} (h : pickBest l = none) : l = [] := by
  cases l with
  | nil => rfl
  | cons x tl =>
    rw [pickBest, List.foldl_cons, show pickStep none x = some x from rfl] at h
    obtain ⟨rt', hfold, _, _, _⟩ := pickBest_go tl x
    rw [hfold] at h
    exact absurd h (by simp)

theorem mem_qvalues {s : QState} {rt : Nat × TaskObj} :
    rt ∈ qvalues s ↔ rt.1 ∈ s.tasks ∧ hget s.heap rt.1 = some rt.2 := by
  rcases rt with ⟨r, t⟩
  simp only [qvalues, List.mem_filterMap]
  constructor
  · rintro ⟨r', hr', hmap⟩
    cases hg : hget s.heap r' with
    | none => rw [hg] at hmap; simp at hmap
    | some u =>
      rw [hg] at hmap
      simp only [Option.map_some', Option.some.injEq, Prod.mk.injEq] at hmap
      obtain ⟨h1, h2⟩ := hmap
      subst h1; subst h2
      exact ⟨hr', hg⟩
  · rintro ⟨hr, hg⟩
    exact ⟨r, hr, by rw [hg]; rfl⟩

theorem elig_iff {rt : Nat × TaskObj} :
    elig rt = true ↔ rt.2.status = .pending ∧ 0 < rt.2.priority := by
  simp [elig]

theorem selectNext_spec {s : QState} {rt : Nat × TaskObj} (h : selectNext s = some rt) :
    rt.1 ∈ s.tasks ∧ hget s.heap rt.1 = some rt.2
      ∧ rt.2.status = .pending ∧ 0 < rt.2.priority := by
  obtain ⟨hmem, _⟩ := pickBest_spec h
  rw [List.mem_filter] at hmem
  obtain ⟨hq, he⟩ := hmem
  obtain ⟨h1, h2⟩ := mem_qvalues.1 hq
  obtain ⟨h3, h4⟩ := elig_iff.1 he
  exact ⟨h1, h2, h3, h4⟩

theorem selectNext_max {s : QState} {rt : Nat × TaskObj} (h : selectNext s = some rt) :
    ∀ r t, r ∈ s.tasks → hget s.heap r = some t → t.status = .pending → 0 < t.priority →
      t.priority ≤ rt.2.priority := by
  obtain ⟨_, hmax⟩ := pickBest_spec h
  intro r t hr hg hst hpr
  exact hmax (r, t) (List.mem_filter.2 ⟨mem_qvalues.2 ⟨hr, hg⟩, elig_iff.2 ⟨hst, hpr⟩⟩)

theorem selectNext_none {s : QState}
    (h : ∀ r t, r ∈ s.tasks → hget s.heap r = some t →
      ¬(t.status = .pending ∧ 0 < t.priority)) :
    selectNext s = none := by
  have hfil : (qvalues s).filter elig = [] := by
    rw [List.filter_eq_nil_iff]
    intro rt hrt
    obtain ⟨h1, h2⟩ := mem_qvalues.1 hrt
    intro he
    exact h rt.1 rt.2 h1 h2 (elig_iff.1 he)
  rw [selectNext, hfil]
  rfl

end PSVTiles

namespace PSVTiles

/-! ## qstartAux projection lemmas -/

theorem qstartAux_tasks : ∀ (n : Nat) (s : QState), (qstartAux n s).tasks = s.tasks := by
  intro n
  induction n with
  | zero => intro s; rfl
  | succ m ih =>
    intro s
    rw [qstartAux]
    by_cases hc : s.concurency ≤ s.runningTasks.length
    · rw [if_pos hc]
    · rw [if_neg hc]
      cases hsel : selectNext s with
      | none => rfl
      | some rt => rw [ih]; rfl

theorem qstartAux_nextRef : ∀ (n : Nat) (s : QState), (qstartAux n s).nextRef = s.nextRef := by
  intro n
  induction n with
  | zero => intro s; rfl
  | succ m ih =>
    intro s
    rw [qstartAux]
    by_cases hc : s.concurency ≤ s.runningTasks.length
    · rw [if_pos hc]
    · rw [if_neg hc]
      cases hsel : selectNext s with
      | none => rfl
      | some rt => rw [ih]; rfl

theorem qstartAux_concurency :
    ∀ (n : Nat) (s : QState), (qstartAux n s).concurency = s.concurency := by
  intro n
  induction n with
  | zero => intro s; rfl
  | succ m ih =>
    intro s
    rw [qstartAux]
    by_cases hc : s.concurency ≤ s.runningTasks.length
    · rw [if_pos hc]
    · rw [if_neg hc]
      cases hsel : selectNext s with
      | none => rfl
      | some rt => rw [ih]; rfl

theorem qstartAux_tilesProp :
    ∀ (n : Nat) (s : QState), (qstartAux n s).tilesProp = s.tilesProp := by
  intro n
  induction n with
  | zero => intro s; rfl
  | succ m ih =>
    intro s
    rw [qstartAux]
    by_cases hc : s.concurency ≤ s.runningTasks.length
    · rw [if_pos hc]
    · rw [if_neg hc]
      cases hsel : selectNext s with
      | none => rfl
      | some rt => rw [ih]; rfl

theorem qstartAux_drawLog :
    ∀ (n : Nat) (s : QState), (qstartAux n s).drawLog = s.drawLog := by
  intro n
  induction n with
  | zero => intro s; rfl
  | succ m ih =>
    intro s
    rw [qstartAux]
    by_cases hc : s.concurency ≤ s.runningTasks.length
    · rw [if_pos hc]
    · rw [if_neg hc]
      cases hsel : selectNext s with
      | none => rfl
      | some rt => rw [ih]; rfl

theorem qstartAux_inflight_sup :
    ∀ (n : Nat) (s : QState) (r : Nat), r ∈ s.inflight → r ∈ (qstartAux n s).inflight := by
  intro n
  induction n with
  | zero => intro s r hr; exact hr
  | succ m ih =>
    intro s r hr
    rw [qstartAux]
    by_cases hc : s.concurency ≤ s.runningTasks.length
    · rw [if_pos hc]; exact hr
    · rw [if_neg hc]
      cases hsel : selectNext s with
      | none => exact hr
      | some rt =>
        exact ih _ _ (by simp only [startStep]; exact List.mem_cons_of_mem _ hr)

theorem qstartAux_heap_keys :
    ∀ (n : Nat) (s : QState), (qstartAux n s).heap.map (·.1) = s.heap.map (·.1) := by
  intro n
  induction n with
  | zero => intro s; rfl
  | succ m ih =>
    intro s
    rw [qstartAux]
    by_cases hc : s.concurency ≤ s.runningTasks.length
    · rw [if_pos hc]
    · rw [if_neg hc]
      cases hsel : selectNext s with
      | none => rfl
      | some rt =>
        rw [ih]
        simp only [startStep]
        exact hmodify_keys _ _ _

theorem qstartAux_heap_ids :
    ∀ (n : Nat) (s : QState), (qstartAux n s).heap.map (·.2.id) = s.heap.map (·.2.id) := by
  intro n
  induction n with
  | zero => intro s; rfl
  | succ m ih =>
    intro s
    rw [qstartAux]
    by_cases hc : s.concurency ≤ s.runningTasks.length
    · rw [if_pos hc]
    · rw [if_neg hc]
      cases hsel : selectNext s with
      | none => rfl
      | some rt =>
        rw [ih]
        simp only [startStep]
        exact hmodify_ids _ _ _ (fun t => rfl)

/-- A task that is not pending is untouched by the synchronous start loop. -/
theorem qstartAux_hget_stable :
    ∀ (n : Nat) (s : QState) (r : Nat) (t : TaskObj),
      hget s.heap r = some t → t.status ≠ .pending →
      hget (qstartAux n s).heap r = some t := by
  intro n
  induction n with
  | zero => intro s r t hg _; exact hg
  | succ m ih =>
    intro s r t hg hst
    rw [qstartAux]
    by_cases hc : s.concurency ≤ s.runningTasks.length
    · rw [if_pos hc]; exact hg
    · rw [if_neg hc]
      cases hsel : selectNext s with
      | none => exact hg
      | some rt =>
        obtain ⟨_, hgsel, hpend, _⟩ := selectNext_spec hsel
        apply ih
        · show hget (startStep s rt).heap r = some t
          simp only [startStep]
          rw [hget_hmodify]
          by_cases hr : r = rt.1
          · subst hr
            rw [hg] at hgsel
            have := Option.some.inj hgsel
            exact absurd (this ▸ hpend) hst
          · rw [if_neg hr]; exact hg
        · exact hst

/-- The start loop never changes a task's id or priority. -/
theorem qstartAux_hget_proj :
    ∀ (n : Nat) (s : QState) (r : Nat),
      (hget (qstartAux n s).heap r).map (fun t => (t.id, t.priority))
        = (hget s.heap r).map (fun t => (t.id, t.priority)) := by
  intro n
  induction n with
  | zero => intro s r; rfl
  | succ m ih =>
    intro s r
    rw [qstartAux]
    by_cases hc : s.concurency ≤ s.runningTasks.length
    · rw [if_pos hc]
    · rw [if_neg hc]
      cases hsel : selectNext s with
      | none => rfl
      | some rt =>
        rw [ih]
        simp only [startStep]
        rw [hget_hmodify]
        by_cases hr : r = rt.1
        · rw [if_pos hr]
          cases hget s.heap r <;> rfl
        · rw [if_neg hr]

/-- New entries of `runningTasks` created by the start loop are ids of tasks
that were pending when the loop began. -/
theorem qstartAux_rt_from :
    ∀ (n : Nat) (s : QState) (i : String),
      i ∈ (qstartAux n s).runningTasks →
      i ∈ s.runningTasks ∨ ∃ p ∈ s.heap, p.2.id = i ∧ p.2.status = .pending := by
  intro n
  induction n with
  | zero => intro s i hi; exact Or.inl hi
  | succ m ih =>
    intro s i hi
    rw [qstartAux] at hi
    by_cases hc : s.concurency ≤ s.runningTasks.length
    · rw [if_pos hc] at hi; exact Or.inl hi
    · rw [if_neg hc] at hi
      cases hsel : selectNext s with
      | none => rw [hsel] at hi; exact Or.inl hi
      | some rt =>
        rw [hsel] at hi
        obtain ⟨_, hgsel, hpend, _⟩ := selectNext_spec hsel
        rcases ih _ _ hi with h1 | h1
        · simp only [startStep] at h1
          by_cases hmem : rt.2.id ∈ s.runningTasks
          · rw [if_pos hmem] at h1; exact Or.inl h1
          · rw [if_neg hmem] at h1
            rcases List.mem_append.1 h1 with h2 | h2
            · exact Or.inl h2
            · have hieq : i = rt.2.id := by simpa using h2
              subst hieq
              exact Or.inr ⟨(rt.1, rt.2), hget_mem hgsel, rfl, hpend⟩
        · simp only [startStep] at h1
          obtain ⟨p, hp, hpid, hpst⟩ := h1
          obtain ⟨q, hq, hpeq⟩ := mem_hmodify.1 hp
          subst hpeq
          by_cases hqr : q.1 = rt.1
          · simp only [hqr, if_true, ite_true] at hpst
            exact absurd hpst (by simp)
          · simp only [hqr, if_false, ite_false] at hpid hpst
            exact Or.inr ⟨q, hq, hpid, hpst⟩

end PSVTiles

namespace PSVTiles

/-! ## The scheduler invariant (all events) -/

theorem filterMap_congr_mem {α β : Type} {l : List α} {f g : α → Option β}
    (h : ∀ a ∈ l, f a = g a) : l.filterMap f = l.filterMap g := by
  induction l with
  | nil => rfl
  | cons x tl ih =>
    rw [List.filterMap_cons, List.filterMap_cons, h x (List.mem_cons_self _ _),
      ih (fun a ha => h a (List.mem_cons_of_mem _ ha))]

theorem hget_si_foldMod {f : TaskObj → TaskObj}
    (hf : ∀ t, (f t).id = t.id ∧ (f t).status = t.status) :
    ∀ (rs : List Nat) (h : Heap) (r : Nat),
      (hget (rs.foldl (fun h' k => hmodify h' k f) h) r).map siFun
        = (hget h r).map siFun := by
  intro rs
  induction rs with
  | nil => intro h r; rfl
  | cons k tl ih =>
    intro h r
    rw [List.foldl_cons, ih, hget_hmodify]
    by_cases hr : r = k
    · rw [if_pos hr, Option.map_map]
      cases hget h r with
      | none => rfl
      | some t => simp [siFun, Function.comp, hf t]
    · rw [if_neg hr]

theorem si_transfer {o o' : Option TaskObj} (h : o'.map siFun = o.map siFun) :
    ∀ u, o' = some u → ∃ t, o = some t ∧ u.id = t.id ∧ u.status = t.status := by
  intro u hu
  rw [hu] at h
  cases o with
  | none => simp [siFun] at h
  | some t =>
    refine ⟨t, rfl, ?_⟩
    simp only [Option.map_some', Option.some.injEq, siFun, Prod.mk.injEq] at h
    exact ⟨h.1, h.2⟩

/-- Invariant transfer along a state change that keeps the maps, the id/status
view of the heap, and the bookkeeping fields. -/
theorem Inv_congr_si {s s' : QState} (hs : Inv s)
    (htasks : s'.tasks = s.tasks) (hinfl : s'.inflight = s.inflight)
    (htp : s'.tilesProp = s.tilesProp) (hnr : s'.nextRef = s.nextRef)
    (hkeys : s'.heap.map (·.1) = s.heap.map (·.1))
    (hsi : ∀ r, (hget s'.heap r).map siFun = (hget s.heap r).map siFun) :
    Inv s' := by
  have hid : ∀ r, idAt s' r = idAt s r := by
    intro r
    have := hsi r
    show (hget s'.heap r).map (·.id) = (hget s.heap r).map (·.id)
    cases hg' : hget s'.heap r with
    | none =>
      rw [hg'] at this
      cases hg : hget s.heap r with
      | none => rfl
      | some t => rw [hg] at this; simp [siFun] at this
    | some u =>
      obtain ⟨t, hg, h1, _⟩ := si_transfer this u hg'
      rw [hg]
      simp [h1]
  have hids : taskIds s' = taskIds s := by
    show s'.tasks.filterMap (idAt s') = s.tasks.filterMap (idAt s)
    rw [htasks]
    exact filterMap_congr_mem (fun r _ => hid r)
  constructor
  · rw [hkeys]; exact hs.refsNd
  · rw [hkeys, hnr]; exact hs.refsLt
  · intro r hr
    rw [htasks] at hr
    obtain ⟨t, ht⟩ := hs.taskSubH r hr
    cases hg' : hget s'.heap r with
    | none =>
      have := hsi r
      rw [hg', ht] at this
      simp [siFun] at this
    | some u => exact ⟨u, rfl⟩
  · intro r hr t ht
    rw [htasks] at hr
    obtain ⟨u, hu, h1, h2⟩ := si_transfer (hsi r) t ht
    rcases hs.tStat r hr u hu with h3 | h3
    · exact Or.inl (h2.trans h3)
    · exact Or.inr (h2.trans h3)
  · rw [hids]; exact hs.tIdsNd
  · rw [hids, htp]; exact hs.tIdsSub
  · intro r hr
    rw [hinfl] at hr
    obtain ⟨t, ht⟩ := hs.inflSub r hr
    cases hg' : hget s'.heap r with
    | none =>
      have := hsi r
      rw [hg', ht] at this
      simp [siFun] at this
    | some u => exact ⟨u, rfl⟩
  · rw [hinfl]; exact hs.inflNd
  · intro r hr t ht
    rw [hinfl] at hr
    obtain ⟨u, hu, h1, h2⟩ := si_transfer (hsi r) t ht
    rcases hs.inflStat r hr u hu with h3 | h3
    · exact Or.inl (h2.trans h3)
    · exact Or.inr (h2.trans h3)

theorem Inv_qsetAllPriorities {s : QState} (hs : Inv s) : Inv (qsetAllPriorities s) := by
  refine Inv_congr_si hs rfl rfl rfl rfl ?_ ?_
  · show (s.tasks.foldl (fun h r => hmodify h r fun t => { t with priority := 0 }) s.heap).map
        (·.1) = s.heap.map (·.1)
    exact foldMod_keys _ _
  · intro r
    show (hget (s.tasks.foldl (fun h k => hmodify h k fun t => { t with priority := 0 })
        s.heap) r).map siFun = (hget s.heap r).map siFun
    exact @hget_si_foldMod (fun t => { t with priority := 0 })
      (fun t => ⟨rfl, rfl⟩) s.tasks s.heap r

theorem Inv_qsetPriority {s : QState} (hs : Inv s) (i : String) (p : Int) :
    Inv (qsetPriority s i p) := by
  rw [qsetPriority]
  cases hfind : s.tasks.find? (fun r => idAt s r == some i) with
  | none => exact hs
  | some r =>
    refine Inv_congr_si hs rfl rfl rfl rfl ?_ ?_
    · show (hmodify s.heap r fun t => { t with priority := p }).map (·.1) = s.heap.map (·.1)
      exact hmodify_keys _ _ _
    · intro r'
      show (hget (hmodify s.heap r fun t => { t with priority := p }) r').map siFun
          = (hget s.heap r').map siFun
      rw [hget_hmodify]
      by_cases hr : r' = r
      · rw [if_pos hr, Option.map_map]
        cases hget s.heap r' with
        | none => rfl
        | some t => simp [siFun, Function.comp]
      · rw [if_neg hr]

end PSVTiles

namespace PSVTiles

theorem idProj_hmodify {h : Heap} {k : Nat} {f : TaskObj → TaskObj}
    (hf : ∀ t, (f t).id = t.id) (r : Nat) :
    (hget (hmodify h k f) r).map (·.id) = (hget h r).map (·.id) := by
  rw [hget_hmodify]
  by_cases hr : r = k
  · rw [if_pos hr, Option.map_map]
    cases hget h r with
    | none => rfl
    | some t => simp [Function.comp, hf]
  · rw [if_neg hr]

/-- Invariant preservation for a fresh enqueue (`__loadTiles` records the tile
id in `props.tiles` and enqueues a new pending task). -/
theorem Inv_enqueue_aux {s : QState} (hs : Inv s) {i : String} {p : Int}
    (hmem : i ∉ s.tilesProp) :
    Inv { s with heap := (s.nextRef, ⟨i, p, .pending⟩) :: s.heap,
                 nextRef := s.nextRef + 1,
                 tasks := s.tasks ++ [s.nextRef],
                 tilesProp := s.tilesProp ++ [i] } := by
  have hne : ∀ r ∈ s.heap.map (·.1), r ≠ s.nextRef :=
    fun r hr => Nat.ne_of_lt (hs.refsLt r hr)
  have hgetOld : ∀ r, r ≠ s.nextRef →
      hget ((s.nextRef, ⟨i, p, .pending⟩) :: s.heap) r = hget s.heap r := by
    intro r hr
    rw [hget_cons, if_neg (fun h => hr h.symm)]
  have hgetNew : hget ((s.nextRef, ⟨i, p, .pending⟩) :: s.heap) s.nextRef
      = some ⟨i, p, .pending⟩ := by
    rw [hget_cons, if_pos rfl]
  have hTaskNe : ∀ r ∈ s.tasks, r ≠ s.nextRef := by
    intro r hr
    obtain ⟨t, ht⟩ := hs.taskSubH r hr
    exact hne r ((hget_isSome_iff s.heap r).1 (by rw [ht]; rfl))
  have hInflNe : ∀ r ∈ s.inflight, r ≠ s.nextRef := by
    intro r hr
    obtain ⟨t, ht⟩ := hs.inflSub r hr
    exact hne r ((hget_isSome_iff s.heap r).1 (by rw [ht]; rfl))
  have hsplit : (s.tasks ++ [s.nextRef]).filterMap
        (fun r => (hget ((s.nextRef, ⟨i, p, .pending⟩) :: s.heap) r).map (·.id))
      = taskIds s ++ [i] := by
    rw [List.filterMap_append]
    congr 1
    · apply filterMap_congr_mem
      intro r hr
      rw [hgetOld r (hTaskNe r hr)]
      rfl
    · simp [List.filterMap_cons, hgetNew]
  constructor
  · show ((s.nextRef, ⟨i, p, Status.pending⟩) :: s.heap).map (·.1) |>.Nodup
    rw [List.map_cons, List.nodup_cons]
    exact ⟨fun hm => hne s.nextRef hm rfl, hs.refsNd⟩
  · show ∀ r ∈ ((s.nextRef, ⟨i, p, Status.pending⟩) :: s.heap).map (·.1), r < s.nextRef + 1
    intro r hr
    rw [List.map_cons, List.mem_cons] at hr
    rcases hr with h1 | h1
    · have : r = s.nextRef := h1
      omega
    · exact Nat.lt_succ_of_lt (hs.refsLt r h1)
  · intro r hr
    rcases List.mem_append.1 hr with h1 | h1
    · obtain ⟨t, ht⟩ := hs.taskSubH r h1
      exact ⟨t, by rw [hgetOld r (hTaskNe r h1)]; exact ht⟩
    · have : r = s.nextRef := by simpa using h1
      subst this
      exact ⟨_, hgetNew⟩
  · intro r hr t ht
    rcases List.mem_append.1 hr with h1 | h1
    · rw [show hget _ r = hget s.heap r from hgetOld r (hTaskNe r h1)] at ht
      exact hs.tStat r h1 t ht
    · have : r = s.nextRef := by simpa using h1
      subst this
      rw [hgetNew] at ht
      exact Or.inl (by rw [← Option.some.inj ht])
  · show ((s.tasks ++ [s.nextRef]).filterMap
      (fun r => (hget ((s.nextRef, ⟨i, p, .pending⟩) :: s.heap) r).map (·.id))).Nodup
    rw [hsplit]
    apply List.Nodup.append hs.tIdsNd (List.nodup_singleton _)
    intro x hx hx'
    have : x = i := by simpa using hx'
    subst this
    exact hmem (hs.tIdsSub x hx)
  · show ∀ j ∈ (s.tasks ++ [s.nextRef]).filterMap
      (fun r => (hget ((s.nextRef, ⟨i, p, .pending⟩) :: s.heap) r).map (·.id)),
      j ∈ s.tilesProp ++ [i]
    rw [hsplit]
    intro j hj
    rcases List.mem_append.1 hj with h1 | h1
    · exact List.mem_append.2 (Or.inl (hs.tIdsSub j h1))
    · exact List.mem_append.2 (Or.inr h1)
  · intro r hr
    obtain ⟨t, ht⟩ := hs.inflSub r hr
    exact ⟨t, by rw [hgetOld r (hInflNe r hr)]; exact ht⟩
  · exact hs.inflNd
  · intro r hr t ht
    rw [show hget _ r = hget s.heap r from hgetOld r (hInflNe r hr)] at ht
    exact hs.inflStat r hr t ht

theorem Inv_submitOne {s : QState} (hs : Inv s) (ti : String × Int) :
    Inv (submitOne s ti) := by
  rw [submitOne]
  by_cases hmem : ti.1 ∈ s.tilesProp
  · rw [if_pos hmem]; exact Inv_qsetPriority hs _ _
  · rw [if_neg hmem]
    have hany : (s.tasks.any (fun r' => idAt s r' == some ti.1)) = false := by
      rw [Bool.eq_false_iff]
      intro hany
      obtain ⟨r', hr', hbeq⟩ := List.any_eq_true.1 hany
      have : idAt s r' = some ti.1 := by simpa using hbeq
      exact hmem (hs.tIdsSub ti.1 (List.mem_filterMap.2 ⟨r', hr', this⟩))
    have heq : qenqueue { s with tilesProp := s.tilesProp ++ [ti.1] } ti.1 ti.2
        = { s with heap := (s.nextRef, ⟨ti.1, ti.2, .pending⟩) :: s.heap,
                   nextRef := s.nextRef + 1,
                   tasks := s.tasks ++ [s.nextRef],
                   tilesProp := s.tilesProp ++ [ti.1] } := by
      rw [qenqueue]
      have hid2 : idAt { s with tilesProp := s.tilesProp ++ [ti.1] } = idAt s := rfl
      simp only [hid2, hany]
      rfl
    rw [heq]
    exact Inv_enqueue_aux hs hmem

theorem Inv_startStep {s : QState} {rt : Nat × TaskObj} (hs : Inv s)
    (hsel : selectNext s = some rt) : Inv (startStep s rt) := by
  obtain ⟨htask, hget0, hpend, hpri⟩ := selectNext_spec hsel
  have hnotinfl : rt.1 ∉ s.inflight := by
    intro hmem
    rcases hs.inflStat rt.1 hmem rt.2 hget0 with h | h <;>
      (rw [hpend] at h; exact absurd h (by simp))
  have hheap : (startStep s rt).heap
      = hmodify s.heap rt.1 (fun t => { t with status := Status.running }) := rfl
  have htasks : (startStep s rt).tasks = s.tasks := rfl
  have hinfl : (startStep s rt).inflight = rt.1 :: s.inflight := rfl
  have hgets : ∀ r, hget (startStep s rt).heap r
      = if r = rt.1
        then (hget s.heap r).map (fun t => { t with status := Status.running })
        else hget s.heap r := by
    intro r
    rw [hheap, hget_hmodify]
  have hid : ∀ r, idAt (startStep s rt) r = idAt s r := by
    intro r
    show (hget (startStep s rt).heap r).map (·.id) = (hget s.heap r).map (·.id)
    rw [hheap]
    exact @idProj_hmodify s.heap rt.1 (fun t => { t with status := Status.running })
      (fun t => rfl) r
  have hids : taskIds (startStep s rt) = taskIds s := by
    show (startStep s rt).tasks.filterMap (idAt (startStep s rt))
      = s.tasks.filterMap (idAt s)
    rw [htasks]
    exact filterMap_congr_mem (fun r _ => hid r)
  constructor
  · rw [hheap, hmodify_keys]; exact hs.refsNd
  · show ∀ r ∈ (startStep s rt).heap.map (·.1), r < s.nextRef
    rw [hheap, hmodify_keys]; exact hs.refsLt
  · intro r hr
    rw [htasks] at hr
    obtain ⟨t, ht⟩ := hs.taskSubH r hr
    rw [hgets r]
    by_cases hrr : r = rt.1
    · rw [if_pos hrr, ht]; exact ⟨_, rfl⟩
    · rw [if_neg hrr, ht]; exact ⟨t, rfl⟩
  · intro r hr t ht
    rw [htasks] at hr
    rw [hgets r] at ht
    by_cases hrr : r = rt.1
    · rw [if_pos hrr] at ht
      cases hg : hget s.heap r with
      | none => rw [hg] at ht; exact absurd ht (by simp)
      | some u =>
        rw [hg] at ht
        have := Option.some.inj ht
        exact Or.inr (by rw [← this])
    · rw [if_neg hrr] at ht
      exact hs.tStat r hr t ht
  · rw [hids]; exact hs.tIdsNd
  · show ∀ i ∈ taskIds (startStep s rt), i ∈ s.tilesProp
    rw [hids]; exact hs.tIdsSub
  · intro r hr
    rw [hinfl] at hr
    rcases List.mem_cons.1 hr with h1 | h1
    · subst h1
      rw [hgets rt.1, if_pos rfl, hget0]
      exact ⟨_, rfl⟩
    · obtain ⟨t, ht⟩ := hs.inflSub r h1
      rw [hgets r]
      by_cases hrr : r = rt.1
      · rw [if_pos hrr, ht]; exact ⟨_, rfl⟩
      · rw [if_neg hrr, ht]; exact ⟨t, rfl⟩
  · rw [hinfl, List.nodup_cons]
    exact ⟨hnotinfl, hs.inflNd⟩
  · intro r hr t ht
    rw [hinfl] at hr
    rw [hgets r] at ht
    rcases List.mem_cons.1 hr with h1 | h1
    · subst h1
      rw [if_pos rfl, hget0] at ht
      have := Option.some.inj ht
      exact Or.inl (by rw [← this])
    · have hrr : r ≠ rt.1 := fun h => hnotinfl (h ▸ h1)
      rw [if_neg hrr] at ht
      exact hs.inflStat r h1 t ht

theorem Inv_qstartAux {s : QState} (hs : Inv s) : ∀ n, Inv (qstartAux n s) := by
  intro n
  induction n generalizing s with
  | zero => exact hs
  | succ m ih =>
    rw [qstartAux]
    by_cases hc : s.concurency ≤ s.runningTasks.length
    · rw [if_pos hc]; exact hs
    · rw [if_neg hc]
      cases hsel : selectNext s with
      | none => exact hs
      | some rt => exact ih (Inv_startStep hs hsel)

theorem Inv_qstart {s : QState} (hs : Inv s) : Inv (qstart s) := Inv_qstartAux hs _

theorem Inv_submitFold : ∀ (ts : List (String × Int)) (s : QState), Inv s →
    Inv (ts.foldl submitOne s) := by
  intro ts
  induction ts with
  | nil => intro s hs; exact hs
  | cons ti tl ih => intro s hs; exact ih _ (Inv_submitOne hs ti)

theorem Inv_applySubmit {s : QState} (hs : Inv s) (ts : List (String × Int)) :
    Inv (applySubmit s ts) :=
  Inv_qstart (Inv_submitFold ts _ (Inv_qsetAllPriorities hs))

end PSVTiles

namespace PSVTiles

/-- Invariant preservation for the synchronous state update a settlement
performs before re-invoking `start`. -/
theorem Inv_settle_record {s : QState} (hs : Inv s) {r : Nat} {t : TaskObj}
    (_hinfl : r ∈ s.inflight) (hg : hget s.heap r = some t) (ok : Bool) :
    Inv { s with
      drawLog := s.drawLog ++ [(t.id, ok)]
      heap := hmodify s.heap r (fun u => { u with status := Status.done })
      inflight := s.inflight.erase r
      tasks := s.tasks.filter (fun r' => !(idAt s r' == some t.id))
      runningTasks := s.runningTasks.filter (fun i => i != t.id) } := by
  have hgets1 : ∀ r', hget (hmodify s.heap r (fun u => { u with status := Status.done })) r'
      = if r' = r then (hget s.heap r').map (fun u => { u with status := Status.done })
        else hget s.heap r' := fun r' => hget_hmodify _ _ _ _
  have hid1 : ∀ r', (hget (hmodify s.heap r (fun u => { u with status := Status.done })) r').map (·.id)
      = idAt s r' :=
    fun r' => @idProj_hmodify s.heap r (fun u => { u with status := Status.done })
      (fun u => rfl) r'
  have hidr : idAt s r = some t.id := by rw [idAt, hg]; rfl
  have hpred : ∀ r' ∈ s.tasks.filter (fun r' => !(idAt s r' == some t.id)),
      r' ∈ s.tasks ∧ idAt s r' ≠ some t.id := by
    intro r' hr'
    rw [List.mem_filter] at hr'
    refine ⟨hr'.1, ?_⟩
    have := hr'.2
    simpa using this
  have hsubl : List.Sublist
      ((s.tasks.filter (fun r' => !(idAt s r' == some t.id))).filterMap (idAt s))
      (taskIds s) :=
    List.Sublist.filterMap _ (List.filter_sublist _)
  have hids1 : (s.tasks.filter (fun r' => !(idAt s r' == some t.id))).filterMap
        (fun r' => (hget (hmodify s.heap r (fun u => { u with status := Status.done })) r').map (·.id))
      = (s.tasks.filter (fun r' => !(idAt s r' == some t.id))).filterMap (idAt s) :=
    filterMap_congr_mem (fun r' _ => hid1 r')
  constructor
  · show ((hmodify s.heap r (fun u => { u with status := Status.done })).map (·.1)).Nodup
    rw [hmodify_keys]; exact hs.refsNd
  · show ∀ r' ∈ (hmodify s.heap r (fun u => { u with status := Status.done })).map (·.1),
      r' < s.nextRef
    rw [hmodify_keys]; exact hs.refsLt
  · intro r' hr'
    obtain ⟨hmem, _⟩ := hpred r' hr'
    obtain ⟨u, hu⟩ := hs.taskSubH r' hmem
    rw [hgets1 r']
    by_cases hrr : r' = r
    · rw [if_pos hrr, hu]; exact ⟨_, rfl⟩
    · rw [if_neg hrr, hu]; exact ⟨u, rfl⟩
  · intro r' hr' u hu
    obtain ⟨hmem, hne⟩ := hpred r' hr'
    have hrr : r' ≠ r := fun h => hne (h ▸ hidr)
    rw [hgets1 r', if_neg hrr] at hu
    exact hs.tStat r' hmem u hu
  · show ((s.tasks.filter (fun r' => !(idAt s r' == some t.id))).filterMap
        (fun r' => (hget (hmodify s.heap r (fun u => { u with status := Status.done }))
          r').map (·.id))).Nodup
    rw [hids1]
    exact List.Nodup.sublist hsubl hs.tIdsNd
  · show ∀ i ∈ (s.tasks.filter (fun r' => !(idAt s r' == some t.id))).filterMap
        (fun r' => (hget (hmodify s.heap r (fun u => { u with status := Status.done }))
          r').map (·.id)), i ∈ s.tilesProp
    rw [hids1]
    intro i hi
    exact hs.tIdsSub i (hsubl.subset hi)
  · intro r' hr'
    have hmem : r' ∈ s.inflight := List.mem_of_mem_erase hr'
    obtain ⟨u, hu⟩ := hs.inflSub r' hmem
    rw [hgets1 r']
    by_cases hrr : r' = r
    · rw [if_pos hrr, hu]; exact ⟨_, rfl⟩
    · rw [if_neg hrr, hu]; exact ⟨u, rfl⟩
  · exact List.Nodup.erase _ hs.inflNd
  · intro r' hr' u hu
    have hne : r' ≠ r := ((hs.inflNd.mem_erase_iff).1 hr').1
    have hmem : r' ∈ s.inflight := List.mem_of_mem_erase hr'
    rw [hgets1 r', if_neg hne] at hu
    exact hs.inflStat r' hmem u hu

theorem Inv_settle {s : QState} (hs : Inv s) (r : Nat) (ok : Bool) :
    Inv (settle s r ok) := by
  rw [settle]
  by_cases hinfl : r ∈ s.inflight
  · rw [if_pos hinfl]
    cases hg : hget s.heap r with
    | none => exact hs
    | some t => exact Inv_qstart (Inv_settle_record hs hinfl hg ok)
  · rw [if_neg hinfl]; exact hs

theorem Inv_qclear {s : QState} (hs : Inv s) : Inv (qclear s) := by
  have hheap : (qclear s).heap = s.tasks.foldl
      (fun h r => hmodify h r (fun t => { t with status := Status.cancelled })) s.heap := rfl
  have hkeys : (qclear s).heap.map (·.1) = s.heap.map (·.1) := by
    rw [hheap]; exact foldMod_keys _ _
  constructor
  · rw [hkeys]; exact hs.refsNd
  · show ∀ r ∈ (qclear s).heap.map (·.1), r < s.nextRef
    rw [hkeys]; exact hs.refsLt
  · intro r hr; exact absurd hr (by simp [qclear])
  · intro r hr; exact absurd hr (by simp [qclear])
  · show (([] : List Nat).filterMap _).Nodup
    simp
  · intro i hi
    exact absurd hi (by simp [taskIds, qclear])
  · intro r hr
    obtain ⟨u, hu⟩ := hs.inflSub r hr
    rw [hheap]
    by_cases hmem : r ∈ s.tasks
    · rw [@hget_foldMod_mem (fun t => { t with status := Status.cancelled }) (fun t => rfl)
        r s.tasks s.heap hmem, hu]
      exact ⟨_, rfl⟩
    · rw [hget_foldMod_not_mem _ _ hmem, hu]
      exact ⟨u, rfl⟩
  · exact hs.inflNd
  · intro r hr u hu
    rw [hheap] at hu
    by_cases hmem : r ∈ s.tasks
    · rw [@hget_foldMod_mem (fun t => { t with status := Status.cancelled }) (fun t => rfl)
        r s.tasks s.heap hmem] at hu
      cases hg : hget s.heap r with
      | none => rw [hg] at hu; exact absurd hu (by simp)
      | some u0 =>
        rw [hg] at hu
        have := Option.some.inj hu
        exact Or.inr (by rw [← this])
    · rw [hget_foldMod_not_mem _ _ hmem] at hu
      exact hs.inflStat r hr u hu

theorem Inv_stepEv {s : QState} (hs : Inv s) (e : AEvent) : Inv (stepEv s e) := by
  cases e with
  | submit ts => exact Inv_applySubmit hs ts
  | settle r ok => exact Inv_settle hs r ok
  | reset =>
    have h := Inv_qclear hs
    constructor
    · exact h.refsNd
    · exact h.refsLt
    · intro r hr; exact absurd hr (by simp [stepEv, qclear])
    · intro r hr; exact absurd hr (by simp [stepEv, qclear])
    · show (([] : List Nat).filterMap _).Nodup
      simp
    · intro i hi
      exact absurd hi (by simp [taskIds, stepEv, qclear])
    · exact h.inflSub
    · exact h.inflNd
    · exact h.inflStat

theorem Inv_initState : Inv initState := by
  constructor <;> simp [initState, taskIds]

theorem Inv_foldRun : ∀ (evs : List AEvent) (s : QState), Inv s →
    Inv (evs.foldl stepEv s) := by
  intro evs
  induction evs with
  | nil => intro s hs; exact hs
  | cons e tl ih => intro s hs; exact ih _ (Inv_stepEv hs e)

theorem Inv_run (evs : List AEvent) : Inv (run evs) :=
  Inv_foldRun evs _ Inv_initState

end PSVTiles

namespace PSVTiles

/-! ## Counting and triple-projection helpers -/

theorem countRunning_eq_H (s : QState) : countRunning s = countRunningH s.heap := rfl

theorem hmodify_not_mem {h : Heap} {r : Nat} (hr : r ∉ h.map (·.1))
    (f : TaskObj → TaskObj) : hmodify h r f = h := by
  induction h with
  | nil => rfl
  | cons p tl ih =>
    rw [List.map_cons, List.mem_cons, not_or] at hr
    show (p.1, if p.1 = r then f p.2 else p.2) :: hmodify tl r f = p :: tl
    rw [if_neg (fun h => hr.1 h.symm), ih hr.2]

theorem countRunningH_cons (p : Nat × TaskObj) (tl : Heap) :
    countRunningH (p :: tl)
      = (if p.2.status = .running then 1 else 0) + countRunningH tl := by
  rw [countRunningH, List.filter_cons]
  by_cases hp : p.2.status = .running <;> (simp [hp, countRunningH]; try omega)

theorem countRunningH_hmodify {h : Heap} {r : Nat} {t : TaskObj} (f : TaskObj → TaskObj)
    (hnd : (h.map (·.1)).Nodup) (hg : hget h r = some t) :
    countRunningH (hmodify h r f) + (if t.status = .running then 1 else 0)
      = countRunningH h + (if (f t).status = .running then 1 else 0) := by
  induction h with
  | nil => simp [hget] at hg
  | cons p tl ih =>
    rw [List.map_cons, List.nodup_cons] at hnd
    rw [hget_cons] at hg
    have hstep : hmodify (p :: tl) r f
        = (p.1, if p.1 = r then f p.2 else p.2) :: hmodify tl r f := rfl
    rw [hstep]
    by_cases hpr : p.1 = r
    · rw [if_pos hpr] at hg ⊢
      have ht : p.2 = t := Option.some.inj hg
      have htl : hmodify tl r f = tl := hmodify_not_mem (hpr ▸ hnd.1) f
      rw [htl, countRunningH_cons, countRunningH_cons]
      dsimp only
      rw [ht]
      omega
    · rw [if_neg hpr] at hg ⊢
      rw [countRunningH_cons, countRunningH_cons]
      dsimp only
      have := ih hnd.2 hg
      omega

theorem countRunningH_congr {h h' : Heap}
    (heq : h'.map (·.2.status) = h.map (·.2.status)) :
    countRunningH h' = countRunningH h := by
  have hcp : ∀ (g : Heap), countRunningH g
      = (g.map (·.2.status)).countP (fun st => decide (st = Status.running)) := by
    intro g
    rw [countRunningH, ← List.countP_eq_length_filter, List.countP_map]
    rfl
  rw [hcp, hcp, heq]

theorem hmodify_triple {h : Heap} {k : Nat} {f : TaskObj → TaskObj}
    (hf : ∀ t, (f t).id = t.id ∧ (f t).status = t.status) :
    (hmodify h k f).map tripleFun = h.map tripleFun := by
  simp only [hmodify, List.map_map]
  apply List.map_congr_left
  intro p _
  by_cases hk : p.1 = k <;> simp [hk, tripleFun, hf]

theorem foldMod_triple {f : TaskObj → TaskObj}
    (hf : ∀ t, (f t).id = t.id ∧ (f t).status = t.status) :
    ∀ (rs : List Nat) (h : Heap),
      ((rs.foldl (fun h' k => hmodify h' k f) h).map tripleFun) = h.map tripleFun := by
  intro rs
  induction rs with
  | nil => intro h; rfl
  | cons k tl ih => intro h; rw [List.foldl_cons, ih, hmodify_triple hf]

theorem triple_transfer {h h' : Heap} (heq : h'.map tripleFun = h.map tripleFun) :
    ∀ p' ∈ h', ∃ q ∈ h, q.1 = p'.1 ∧ q.2.id = p'.2.id ∧ q.2.status = p'.2.status := by
  intro p' hp'
  have hmem : tripleFun p' ∈ h.map tripleFun := by
    rw [← heq]
    exact List.mem_map_of_mem _ hp'
  obtain ⟨q, hq, heq2⟩ := List.mem_map.1 hmem
  refine ⟨q, hq, ?_, ?_, ?_⟩
  · exact congrArg (fun x => x.1) heq2
  · exact congrArg (fun x => x.2.1) heq2
  · exact congrArg (fun x => x.2.2) heq2

theorem statuses_of_triple {h h' : Heap} (heq : h'.map tripleFun = h.map tripleFun) :
    h'.map (·.2.status) = h.map (·.2.status) := by
  have h1 : ∀ (g : Heap), g.map (·.2.status) = (g.map tripleFun).map (·.2.2) := by
    intro g
    rw [List.map_map]
    rfl
  rw [h1, h1, heq]

theorem ids_of_triple {h h' : Heap} (heq : h'.map tripleFun = h.map tripleFun) :
    h'.map (·.2.id) = h.map (·.2.id) := by
  have h1 : ∀ (g : Heap), g.map (·.2.id) = (g.map tripleFun).map (·.2.1) := by
    intro g
    rw [List.map_map]
    rfl
  rw [h1, h1, heq]

theorem keys_of_triple {h h' : Heap} (heq : h'.map tripleFun = h.map tripleFun) :
    h'.map (·.1) = h.map (·.1) := by
  have h1 : ∀ (g : Heap), g.map (·.1) = (g.map tripleFun).map (·.1) := by
    intro g
    rw [List.map_map]
    rfl
  rw [h1, h1, heq]

end PSVTiles

namespace PSVTiles

/-! ## Preservation of the no-reset invariant -/

theorem InvNR_congr_triple {s s' : QState} (hs : InvNR s) (hbase : Inv s')
    (hrt : s'.runningTasks = s.runningTasks) (hinfl : s'.inflight = s.inflight)
    (htp : s'.tilesProp = s.tilesProp) (hcc : s'.concurency = s.concurency)
    (htriple : s'.heap.map tripleFun = s.heap.map tripleFun) : InvNR s' := by
  have hids := ids_of_triple htriple
  have hsts := statuses_of_triple htriple
  constructor
  · exact hbase
  · rw [hids]; exact hs.idsNd
  · rw [hids, htp]; exact hs.idsSub
  · intro p hp
    obtain ⟨q, hq, _, _, hqs⟩ := triple_transfer htriple p hp
    rw [← hqs]
    exact hs.noCancel q hq
  · intro r
    rw [hinfl, hs.inflIff r]
    constructor
    · rintro ⟨q, hq, hk, hst⟩
      obtain ⟨p, hp, hk2, _, hst2⟩ := triple_transfer htriple.symm q hq
      exact ⟨p, hp, hk2.trans hk, hst2.trans hst⟩
    · rintro ⟨p, hp, hk, hst⟩
      obtain ⟨q, hq, hk2, _, hst2⟩ := triple_transfer htriple p hp
      exact ⟨q, hq, hk2.trans hk, hst2.trans hst⟩
  · intro i
    rw [hrt, hs.rtIff i]
    constructor
    · rintro ⟨q, hq, hk, hst⟩
      obtain ⟨p, hp, _, hk2, hst2⟩ := triple_transfer htriple.symm q hq
      exact ⟨p, hp, hk2.trans hk, hst2.trans hst⟩
    · rintro ⟨p, hp, hk, hst⟩
      obtain ⟨q, hq, _, hk2, hst2⟩ := triple_transfer htriple p hp
      exact ⟨q, hq, hk2.trans hk, hst2.trans hst⟩
  · rw [hrt]; exact hs.rtNd
  · rw [hrt, countRunning_eq_H, countRunningH_congr hsts, ← countRunning_eq_H]
    exact hs.rtLen
  · rw [hrt, hcc]; exact hs.rtCap
  · rw [hcc]; exact hs.conc

theorem InvNR_qsetAllPriorities {s : QState} (hs : InvNR s) :
    InvNR (qsetAllPriorities s) := by
  refine InvNR_congr_triple hs (Inv_qsetAllPriorities hs.base) rfl rfl rfl rfl ?_
  show ((s.tasks.foldl (fun h r => hmodify h r fun t => { t with priority := 0 })
      s.heap).map tripleFun) = s.heap.map tripleFun
  exact @foldMod_triple (fun t => { t with priority := 0 }) (fun t => ⟨rfl, rfl⟩) s.tasks s.heap

theorem InvNR_qsetPriority {s : QState} (hs : InvNR s) (i : String) (p : Int) :
    InvNR (qsetPriority s i p) := by
  have hbase := Inv_qsetPriority hs.base i p
  rw [qsetPriority] at hbase ⊢
  cases hfind : s.tasks.find? (fun r => idAt s r == some i) with
  | none => exact hs
  | some r =>
    rw [hfind] at hbase
    refine InvNR_congr_triple hs hbase rfl rfl rfl rfl ?_
    show ((hmodify s.heap r fun t => { t with priority := p }).map tripleFun)
      = s.heap.map tripleFun
    exact hmodify_triple (fun t => ⟨rfl, rfl⟩)

theorem InvNR_enqueue_aux {s : QState} (hs : InvNR s) {i : String} {p : Int}
    (hmem : i ∉ s.tilesProp) :
    InvNR { s with heap := (s.nextRef, ⟨i, p, .pending⟩) :: s.heap,
                   nextRef := s.nextRef + 1,
                   tasks := s.tasks ++ [s.nextRef],
                   tilesProp := s.tilesProp ++ [i] } := by
  constructor
  · exact Inv_enqueue_aux hs.base hmem
  · show ((i :: s.heap.map (·.2.id)) : List String).Nodup
    rw [List.nodup_cons]
    exact ⟨fun h => hmem (hs.idsSub i h), hs.idsNd⟩
  · show ∀ j ∈ (i :: s.heap.map (·.2.id) : List String), j ∈ s.tilesProp ++ [i]
    intro j hj
    rcases List.mem_cons.1 hj with h1 | h1
    · exact List.mem_append.2 (Or.inr (by simp [h1]))
    · exact List.mem_append.2 (Or.inl (hs.idsSub j h1))
  · intro q hq
    rcases List.mem_cons.1 hq with h1 | h1
    · rw [h1]; simp
    · exact hs.noCancel q h1
  · intro r
    rw [hs.inflIff r]
    constructor
    · rintro ⟨q, hq, hk, hst⟩
      exact ⟨q, List.mem_cons_of_mem _ hq, hk, hst⟩
    · rintro ⟨q, hq, hk, hst⟩
      rcases List.mem_cons.1 hq with h1 | h1
      · rw [h1] at hst; exact absurd hst (by simp)
      · exact ⟨q, h1, hk, hst⟩
  · intro j
    rw [hs.rtIff j]
    constructor
    · rintro ⟨q, hq, hk, hst⟩
      exact ⟨q, List.mem_cons_of_mem _ hq, hk, hst⟩
    · rintro ⟨q, hq, hk, hst⟩
      rcases List.mem_cons.1 hq with h1 | h1
      · rw [h1] at hst; exact absurd hst (by simp)
      · exact ⟨q, h1, hk, hst⟩
  · exact hs.rtNd
  · show s.runningTasks.length = countRunningH ((s.nextRef, ⟨i, p, .pending⟩) :: s.heap)
    rw [countRunningH_cons]
    have h0 : (if ((s.nextRef, (⟨i, p, .pending⟩ : TaskObj)).2.status = Status.running)
        then 1 else 0) = 0 := by simp
    rw [h0]
    have hlen := hs.rtLen
    rw [countRunning_eq_H] at hlen
    omega
  · exact hs.rtCap
  · exact hs.conc

theorem InvNR_submitOne {s : QState} (hs : InvNR s) (ti : String × Int) :
    InvNR (submitOne s ti) := by
  rw [submitOne]
  by_cases hmem : ti.1 ∈ s.tilesProp
  · rw [if_pos hmem]; exact InvNR_qsetPriority hs _ _
  · rw [if_neg hmem]
    have hany : (s.tasks.any (fun r' => idAt s r' == some ti.1)) = false := by
      rw [Bool.eq_false_iff]
      intro hany
      obtain ⟨r', hr', hbeq⟩ := List.any_eq_true.1 hany
      have : idAt s r' = some ti.1 := by simpa using hbeq
      exact hmem (hs.base.tIdsSub ti.1 (List.mem_filterMap.2 ⟨r', hr', this⟩))
    have heq : qenqueue { s with tilesProp := s.tilesProp ++ [ti.1] } ti.1 ti.2
        = { s with heap := (s.nextRef, ⟨ti.1, ti.2, .pending⟩) :: s.heap,
                   nextRef := s.nextRef + 1,
                   tasks := s.tasks ++ [s.nextRef],
                   tilesProp := s.tilesProp ++ [ti.1] } := by
      rw [qenqueue]
      have hid2 : idAt { s with tilesProp := s.tilesProp ++ [ti.1] } = idAt s := rfl
      simp only [hid2, hany]
      rfl
    rw [heq]
    exact InvNR_enqueue_aux hs hmem

end PSVTiles

namespace PSVTiles

theorem InvNR_startStep {s : QState} {rt : Nat × TaskObj} (hs : InvNR s)
    (hsel : selectNext s = some rt)
    (hguard : s.runningTasks.length < s.concurency) : InvNR (startStep s rt) := by
  obtain ⟨htask, hget0, hpend, hpri⟩ := selectNext_spec hsel
  have hmem0 : (rt.1, rt.2) ∈ s.heap := hget_mem hget0
  have keyInj := List.inj_on_of_nodup_map hs.base.refsNd
  have idInj := List.inj_on_of_nodup_map hs.idsNd
  have hnotrt : rt.2.id ∉ s.runningTasks := by
    intro hmem
    obtain ⟨q, hq, hid, hst⟩ := (hs.rtIff _).1 hmem
    have hqe : q = (rt.1, rt.2) := idInj hq hmem0 hid
    rw [hqe] at hst
    have hst' : rt.2.status = Status.running := hst
    rw [hpend] at hst'
    exact absurd hst' (by simp)
  have hrt' : (startStep s rt).runningTasks = s.runningTasks ++ [rt.2.id] := by
    show (if rt.2.id ∈ s.runningTasks then s.runningTasks
      else s.runningTasks ++ [rt.2.id]) = _
    rw [if_neg hnotrt]
  have hheap : (startStep s rt).heap
      = hmodify s.heap rt.1 (fun t => { t with status := Status.running }) := rfl
  have hinfl : (startStep s rt).inflight = rt.1 :: s.inflight := rfl
  have hmemNew : (rt.1, { rt.2 with status := Status.running }) ∈ (startStep s rt).heap := by
    rw [hheap]
    refine mem_hmodify.2 ⟨(rt.1, rt.2), hmem0, ?_⟩
    simp
  have hmemOld : ∀ q ∈ s.heap, q.1 ≠ rt.1 → q ∈ (startStep s rt).heap := by
    intro q hq hne
    rw [hheap]
    refine mem_hmodify.2 ⟨q, hq, ?_⟩
    rw [if_neg hne]
  have hqpend : ∀ q ∈ s.heap, q.2.status = Status.running → q.1 ≠ rt.1 := by
    intro q hq hst hne
    have hqe : q = (rt.1, rt.2) := keyInj hq hmem0 hne
    rw [hqe] at hst
    have hst' : rt.2.status = Status.running := hst
    rw [hpend] at hst'
    exact absurd hst' (by simp)
  constructor
  · exact Inv_startStep hs.base hsel
  · show ((startStep s rt).heap.map (·.2.id)).Nodup
    rw [hheap, hmodify_ids s.heap rt.1 (fun t => { t with status := Status.running })
      (fun t => rfl)]
    exact hs.idsNd
  · show ∀ i ∈ (startStep s rt).heap.map (·.2.id), i ∈ s.tilesProp
    rw [hheap, hmodify_ids s.heap rt.1 (fun t => { t with status := Status.running })
      (fun t => rfl)]
    exact hs.idsSub
  · intro p hp
    rw [hheap] at hp
    obtain ⟨q, hq, hpeq⟩ := mem_hmodify.1 hp
    subst hpeq
    by_cases hqr : q.1 = rt.1
    · rw [if_pos hqr]; simp
    · rw [if_neg hqr]; exact hs.noCancel q hq
  · intro r'
    rw [hinfl]
    constructor
    · intro hr'
      rcases List.mem_cons.1 hr' with h1 | h1
      · exact ⟨_, hmemNew, by rw [h1], rfl⟩
      · obtain ⟨q, hq, hk, hst⟩ := (hs.inflIff r').1 h1
        exact ⟨q, hmemOld q hq (hqpend q hq hst), hk, hst⟩
    · rintro ⟨p, hp, hk, hst⟩
      rw [hheap] at hp
      obtain ⟨q, hq, hpeq⟩ := mem_hmodify.1 hp
      subst hpeq
      by_cases hqr : q.1 = rt.1
      · exact List.mem_cons.2 (Or.inl (by rw [← hk]; exact hqr))
      · rw [if_neg hqr] at hst
        exact List.mem_cons.2 (Or.inr ((hs.inflIff r').2 ⟨q, hq, hk, hst⟩))
  · intro i
    rw [hrt']
    constructor
    · intro hi
      rcases List.mem_append.1 hi with h1 | h1
      · obtain ⟨q, hq, hk, hst⟩ := (hs.rtIff i).1 h1
        exact ⟨q, hmemOld q hq (hqpend q hq hst), hk, hst⟩
      · have : i = rt.2.id := by simpa using h1
        exact ⟨_, hmemNew, this ▸ rfl, rfl⟩
    · rintro ⟨p, hp, hk, hst⟩
      rw [hheap] at hp
      obtain ⟨q, hq, hpeq⟩ := mem_hmodify.1 hp
      subst hpeq
      by_cases hqr : q.1 = rt.1
      · have hqe : q = (rt.1, rt.2) := keyInj hq hmem0 hqr
        rw [if_pos hqr] at hk
        rw [hqe] at hk
        have : i = rt.2.id := by rw [← hk]
        exact List.mem_append.2 (Or.inr (by simp [this]))
      · rw [if_neg hqr] at hk hst
        exact List.mem_append.2 (Or.inl ((hs.rtIff i).2 ⟨q, hq, hk, hst⟩))
  · rw [hrt']
    apply List.Nodup.append hs.rtNd (List.nodup_singleton _)
    intro x hx hx'
    have : x = rt.2.id := by simpa using hx'
    subst this
    exact hnotrt hx
  · rw [hrt']
    show (s.runningTasks ++ [rt.2.id]).length = countRunningH (startStep s rt).heap
    rw [hheap, List.length_append]
    have hcnt := countRunningH_hmodify (fun t => { t with status := Status.running })
      hs.base.refsNd hget0
    rw [hpend] at hcnt
    have hlen := hs.rtLen
    rw [countRunning_eq_H] at hlen
    simp only [List.length_singleton]
    simp at hcnt
    omega
  · rw [hrt', List.length_append]
    show s.runningTasks.length + [rt.2.id].length ≤ (startStep s rt).concurency
    have : (startStep s rt).concurency = s.concurency := rfl
    rw [this]
    simp only [List.length_singleton]
    omega
  · show (startStep s rt).concurency = 2
    exact hs.conc

theorem InvNR_qstartAux {s : QState} (hs : InvNR s) : ∀ n, InvNR (qstartAux n s) := by
  intro n
  induction n generalizing s with
  | zero => exact hs
  | succ m ih =>
    rw [qstartAux]
    by_cases hc : s.concurency ≤ s.runningTasks.length
    · rw [if_pos hc]; exact hs
    · rw [if_neg hc]
      cases hsel : selectNext s with
      | none => exact hs
      | some rt => exact ih (InvNR_startStep hs hsel (lt_of_not_le hc))

theorem InvNR_qstart {s : QState} (hs : InvNR s) : InvNR (qstart s) := InvNR_qstartAux hs _

end PSVTiles

namespace PSVTiles

theorem InvNR_settle {s : QState} (hs : InvNR s) (r : Nat) (ok : Bool) :
    InvNR (settle s r ok) := by
  rw [settle]
  by_cases hinfl : r ∈ s.inflight
  · rw [if_pos hinfl]
    cases hg : hget s.heap r with
    | none => exact hs
    | some t =>
      apply InvNR_qstart
      have hmem0 : (r, t) ∈ s.heap := hget_mem hg
      have keyInj := List.inj_on_of_nodup_map hs.base.refsNd
      have idInj := List.inj_on_of_nodup_map hs.idsNd
      have hrun : t.status = Status.running := by
        obtain ⟨q, hq, hk, hst⟩ := (hs.inflIff r).1 hinfl
        have : q = (r, t) := keyInj hq hmem0 hk
        rw [this] at hst
        exact hst
      have htidmem : t.id ∈ s.runningTasks := (hs.rtIff t.id).2 ⟨(r, t), hmem0, rfl, hrun⟩
      have hmemOld : ∀ q ∈ s.heap, q.1 ≠ r →
          q ∈ hmodify s.heap r (fun u => { u with status := Status.done }) := by
        intro q hq hne
        refine mem_hmodify.2 ⟨q, hq, ?_⟩
        rw [if_neg hne]
      constructor
      · exact Inv_settle_record hs.base hinfl hg ok
      · show ((hmodify s.heap r (fun u => { u with status := Status.done })).map
          (·.2.id)).Nodup
        rw [hmodify_ids s.heap r (fun u => { u with status := Status.done }) (fun u => rfl)]
        exact hs.idsNd
      · show ∀ i ∈ (hmodify s.heap r (fun u => { u with status := Status.done })).map
          (·.2.id), i ∈ s.tilesProp
        rw [hmodify_ids s.heap r (fun u => { u with status := Status.done }) (fun u => rfl)]
        exact hs.idsSub
      · intro p hp
        have hp' : p ∈ hmodify s.heap r (fun u => { u with status := Status.done }) := hp
        obtain ⟨q, hq, hpeq⟩ := mem_hmodify.1 hp'
        subst hpeq
        by_cases hqr : q.1 = r
        · rw [if_pos hqr]; simp
        · rw [if_neg hqr]; exact hs.noCancel q hq
      · intro r'
        show r' ∈ s.inflight.erase r ↔ _
        constructor
        · intro hr'
          obtain ⟨hne, hm⟩ := (hs.base.inflNd.mem_erase_iff).1 hr'
          obtain ⟨q, hq, hk, hst⟩ := (hs.inflIff r').1 hm
          have hqne : q.1 ≠ r := by rw [hk]; exact hne
          exact ⟨q, hmemOld q hq hqne, hk, hst⟩
        · rintro ⟨p, hp, hk, hst⟩
          have hp' : p ∈ hmodify s.heap r (fun u => { u with status := Status.done }) := hp
          obtain ⟨q, hq, hpeq⟩ := mem_hmodify.1 hp'
          subst hpeq
          by_cases hqr : q.1 = r
          · rw [if_pos hqr] at hst
            exact absurd hst (by simp)
          · rw [if_neg hqr] at hst
            have hm : r' ∈ s.inflight := (hs.inflIff r').2 ⟨q, hq, hk, hst⟩
            have hne : r' ≠ r := by rw [← hk]; exact hqr
            exact (hs.base.inflNd.mem_erase_iff).2 ⟨hne, hm⟩
      · intro i
        show i ∈ s.runningTasks.filter (fun j => j != t.id) ↔ _
        constructor
        · intro hi
          rw [List.mem_filter] at hi
          have hine : i ≠ t.id := by simpa using hi.2
          obtain ⟨q, hq, hk, hst⟩ := (hs.rtIff i).1 hi.1
          have hqne : q.1 ≠ r := by
            intro hqe
            have : q = (r, t) := keyInj hq hmem0 hqe
            rw [this] at hk
            exact hine (by rw [← hk])
          exact ⟨q, hmemOld q hq hqne, hk, hst⟩
        · rintro ⟨p, hp, hk, hst⟩
          have hp' : p ∈ hmodify s.heap r (fun u => { u with status := Status.done }) := hp
          obtain ⟨q, hq, hpeq⟩ := mem_hmodify.1 hp'
          subst hpeq
          by_cases hqr : q.1 = r
          · rw [if_pos hqr] at hst
            exact absurd hst (by simp)
          · rw [if_neg hqr] at hst hk
            have hi : i ∈ s.runningTasks := (hs.rtIff i).2 ⟨q, hq, hk, hst⟩
            have hine : i ≠ t.id := by
              intro hie
              have : q = (r, t) := idInj hq hmem0 (by rw [hk, hie])
              exact hqr (congrArg (fun x => x.1) this)
            rw [List.mem_filter]
            exact ⟨hi, by simpa using hine⟩
      · exact List.Nodup.filter _ hs.rtNd
      · show (s.runningTasks.filter (fun j => j != t.id)).length
          = countRunningH (hmodify s.heap r (fun u => { u with status := Status.done }))
        have hfe : s.runningTasks.filter (fun j => j != t.id)
            = s.runningTasks.erase t.id := (hs.rtNd.erase_eq_filter t.id).symm
        rw [hfe, List.length_erase_of_mem htidmem]
        have hpos : 0 < s.runningTasks.length := List.length_pos_of_mem htidmem
        have hcnt := countRunningH_hmodify (fun u => { u with status := Status.done })
          hs.base.refsNd hg
        rw [hrun] at hcnt
        simp at hcnt
        have hlen := hs.rtLen
        rw [countRunning_eq_H] at hlen
        omega
      · show (s.runningTasks.filter (fun j => j != t.id)).length ≤ s.concurency
        exact le_trans (List.length_filter_le _ _) hs.rtCap
      · exact hs.conc
  · rw [if_neg hinfl]; exact hs

theorem InvNR_submitFold : ∀ (ts : List (String × Int)) (s : QState), InvNR s →
    InvNR (ts.foldl submitOne s) := by
  intro ts
  induction ts with
  | nil => intro s hs; exact hs
  | cons ti tl ih => intro s hs; exact ih _ (InvNR_submitOne hs ti)

theorem InvNR_applySubmit {s : QState} (hs : InvNR s) (ts : List (String × Int)) :
    InvNR (applySubmit s ts) :=
  InvNR_qstart (InvNR_submitFold ts _ (InvNR_qsetAllPriorities hs))

theorem InvNR_initState : InvNR initState := by
  refine ⟨Inv_initState, ?_, ?_, ?_, ?_, ?_, ?_, ?_, ?_, ?_⟩ <;>
    simp [initState, countRunning, countRunningH]

theorem InvNR_stepEv {s : QState} (hs : InvNR s) (e : AEvent)
    (he : e ≠ AEvent.reset) : InvNR (stepEv s e) := by
  cases e with
  | submit ts => exact InvNR_applySubmit hs ts
  | settle r ok => exact InvNR_settle hs r ok
  | reset => exact absurd rfl he

theorem InvNR_foldRun : ∀ (evs : List AEvent) (s : QState), InvNR s →
    (∀ e ∈ evs, e ≠ AEvent.reset) → InvNR (evs.foldl stepEv s) := by
  intro evs
  induction evs with
  | nil => intro s hs _; exact hs
  | cons e tl ih =>
    intro s hs he
    exact ih _ (InvNR_stepEv hs e (he e (List.mem_cons_self _ _)))
      (fun e' he' => he e' (List.mem_cons_of_mem _ he'))

theorem InvNR_run (evs : List AEvent) (h : ∀ e ∈ evs, e ≠ AEvent.reset) :
    InvNR (run evs) :=
  InvNR_foldRun evs _ InvNR_initState h

end PSVTiles

namespace PSVTiles

/-! ## Stability lemmas: settled tasks are never touched again -/

theorem find?_eq_some_of_unique {α : Type} {p : α → Bool} {l : List α} {x : α}
    (hx : x ∈ l) (hpx : p x = true) (huniq : ∀ y ∈ l, p y = true → y = x) :
    l.find? p = some x := by
  induction l with
  | nil => simp at hx
  | cons a tl ih =>
    rw [List.find?]
    by_cases hpa : p a = true
    · rw [hpa]
      exact congrArg some (huniq a (List.mem_cons_self _ _) hpa)
    · have hpa' : p a = false := Bool.eq_false_iff.2 hpa
      rw [hpa']
      have hxtl : x ∈ tl := by
        rcases List.mem_cons.1 hx with h1 | h1
        · exact absurd (h1 ▸ hpx) hpa
        · exact h1
      exact ih hxtl (fun y hy hpy => huniq y (List.mem_cons_of_mem _ hy) hpy)

theorem filterMap_nodup_inj {α β : Type} {f : α → Option β} {l : List α}
    (hnd : (l.filterMap f).Nodup) {x y : α} {b : β} (hx : x ∈ l) (hy : y ∈ l)
    (hfx : f x = some b) (hfy : f y = some b) : x = y := by
  induction l with
  | nil => simp at hx
  | cons a tl ih =>
    rw [List.filterMap_cons] at hnd
    rcases List.mem_cons.1 hx with hx1 | hx1 <;> rcases List.mem_cons.1 hy with hy1 | hy1
    · rw [hx1, hy1]
    · subst hx1
      rw [hfx] at hnd
      rw [List.nodup_cons] at hnd
      exact absurd (List.mem_filterMap.2 ⟨y, hy1, hfy⟩) (hnd.1)
    · subst hy1
      rw [hfy] at hnd
      rw [List.nodup_cons] at hnd
      exact absurd (List.mem_filterMap.2 ⟨x, hx1, hfx⟩) (hnd.1)
    · have hnd' : (tl.filterMap f).Nodup := by
        cases hfa : f a with
        | none => rw [hfa] at hnd; exact hnd
        | some b0 =>
          rw [hfa, List.nodup_cons] at hnd
          exact hnd.2
      exact ih hnd' hx1 hy1

theorem heapCountId_congr {s s' : QState}
    (heq : s'.heap.map (·.2.id) = s.heap.map (·.2.id)) (i : String) :
    heapCountId s' i = heapCountId s i := by
  have hcp : ∀ (g : QState), heapCountId g i
      = (g.heap.map (·.2.id)).countP (fun j => decide (j = i)) := by
    intro g
    rw [heapCountId, ← List.countP_eq_length_filter, List.countP_map]
    rfl
  rw [hcp, hcp, heq]

theorem qenqueue_tasks_sub {s : QState} {i : String} {p : Int} {r : Nat}
    (hr : r ∈ (qenqueue s i p).tasks) : r ∈ s.tasks ∨ r = s.nextRef := by
  rw [qenqueue] at hr
  by_cases hany : (s.tasks.any (fun r' => idAt s r' == some i)) = true
  · rw [if_pos hany] at hr
    obtain ⟨r', hr', heq⟩ := List.mem_map.1 hr
    by_cases hid : (idAt s r' == some i) = true
    · rw [if_pos hid] at heq; exact Or.inr heq.symm
    · rw [if_neg hid] at heq; exact Or.inl (heq ▸ hr')
  · rw [if_neg hany] at hr
    rcases List.mem_append.1 hr with h1 | h1
    · exact Or.inl h1
    · exact Or.inr (by simpa using h1)

/-- A task absent from the queue map keeps its heap cell across `__loadTiles`
steps (only its priority is never even touched because `setPriority` hits a
different reference and `enqueue` allocates a fresh one). -/
theorem submitOne_stable {s : QState} (hs : Inv s) {r : Nat} {t : TaskObj}
    (hg : hget s.heap r = some t) (hrt : r ∉ s.tasks) (ti : String × Int) :
    hget (submitOne s ti).heap r = some t ∧ r ∉ (submitOne s ti).tasks := by
  have hrkey : r ∈ s.heap.map (·.1) := (hget_isSome_iff s.heap r).1 (by rw [hg]; rfl)
  have hrlt : r < s.nextRef := hs.refsLt r hrkey
  rw [submitOne]
  by_cases hmem : ti.1 ∈ s.tilesProp
  · rw [if_pos hmem, qsetPriority]
    cases hfind : s.tasks.find? (fun r' => idAt s r' == some ti.1) with
    | none => exact ⟨hg, hrt⟩
    | some r0 =>
      have hr0 : r0 ∈ s.tasks := List.mem_of_find?_eq_some hfind
      have hne : r ≠ r0 := fun h => hrt (h ▸ hr0)
      constructor
      · show hget (hmodify s.heap r0 (fun u => { u with priority := ti.2 })) r = some t
        rw [hget_hmodify, if_neg hne]
        exact hg
      · exact hrt
  · rw [if_neg hmem]
    constructor
    · show hget ((s.nextRef, _) :: s.heap) r = some t
      rw [hget_cons, if_neg (fun h => Nat.ne_of_lt hrlt h.symm)]
      exact hg
    · intro hmem2
      rcases qenqueue_tasks_sub hmem2 with h1 | h1
      · exact hrt h1
      · exact Nat.ne_of_lt hrlt h1

theorem submitFold_stable : ∀ (ts : List (String × Int)) (s : QState), Inv s →
    ∀ {r : Nat} {t : TaskObj}, hget s.heap r = some t → r ∉ s.tasks →
    hget (ts.foldl submitOne s).heap r = some t ∧ r ∉ (ts.foldl submitOne s).tasks := by
  intro ts
  induction ts with
  | nil => intro s _ r t hg hrt; exact ⟨hg, hrt⟩
  | cons ti tl ih =>
    intro s hs r t hg hrt
    obtain ⟨hg', hrt'⟩ := submitOne_stable hs hg hrt ti
    exact ih _ (Inv_submitOne hs ti) hg' hrt'

theorem qstart_hget_stable {s : QState} {r : Nat} {t : TaskObj}
    (hg : hget s.heap r = some t) (hnp : t.status ≠ Status.pending) :
    hget (qstart s).heap r = some t :=
  qstartAux_hget_stable (s.tasks.length + 1) s r t hg hnp

/-- A settled or cancelled task that is no longer in flight is completely
untouched by every further event. -/
theorem stepEv_stable {s : QState} (hs : Inv s) {r : Nat} {t : TaskObj}
    (hg : hget s.heap r = some t) (hnp : t.status ≠ Status.pending)
    (hnr : t.status ≠ Status.running) (hni : r ∉ s.inflight) (e : AEvent) :
    hget (stepEv s e).heap r = some t := by
  have hrt : r ∉ s.tasks := by
    intro hmem
    rcases hs.tStat r hmem t hg with h | h
    · exact hnp h
    · exact hnr h
  cases e with
  | submit ts =>
    show hget (applySubmit s ts).heap r = some t
    rw [applySubmit]
    have hg0 : hget (qsetAllPriorities s).heap r = some t := by
      show hget (s.tasks.foldl (fun h k => hmodify h k fun u => { u with priority := 0 })
        s.heap) r = some t
      rw [hget_foldMod_not_mem _ _ hrt]
      exact hg
    have hrt0 : r ∉ (qsetAllPriorities s).tasks := hrt
    obtain ⟨hg1, _⟩ :=
      submitFold_stable ts _ (Inv_qsetAllPriorities hs) hg0 hrt0
    exact qstart_hget_stable hg1 hnp
  | settle r' ok =>
    show hget (settle s r' ok).heap r = some t
    rw [settle]
    by_cases hinf : r' ∈ s.inflight
    · rw [if_pos hinf]
      cases hg2 : hget s.heap r' with
      | none => exact hg
      | some t2 =>
        have hne : r ≠ r' := fun h => hni (h ▸ hinf)
        have hg1 : hget (hmodify s.heap r' (fun u => { u with status := Status.done })) r
            = some t := by
          rw [hget_hmodify, if_neg hne]
          exact hg
        exact qstart_hget_stable hg1 hnp
    · rw [if_neg hinf]
      exact hg
  | reset =>
    show hget (s.tasks.foldl (fun h k => hmodify h k fun u => { u with status := Status.cancelled })
      s.heap) r = some t
    rw [hget_foldMod_not_mem _ _ hrt]
    exact hg

/-- A cancelled task is never restarted: after any further event its status is
still `cancelled`, or `done` if its abandoned fetch settles late — never
`running` or `pending` again. -/
theorem stepEv_no_restart {s : QState} (hs : Inv s) {r : Nat} {t : TaskObj}
    (hg : hget s.heap r = some t) (hc : t.status = Status.cancelled) (e : AEvent) :
    statusAt (stepEv s e) r = some Status.cancelled
      ∨ statusAt (stepEv s e) r = some Status.done := by
  have hnp : t.status ≠ Status.pending := by rw [hc]; simp
  have hnr : t.status ≠ Status.running := by rw [hc]; simp
  have hrt : r ∉ s.tasks := by
    intro hmem
    rcases hs.tStat r hmem t hg with h | h
    · exact hnp h
    · exact hnr h
  by_cases hni : r ∈ s.inflight
  · cases e with
    | submit ts =>
      left
      show statusAt (applySubmit s ts) r = some Status.cancelled
      rw [applySubmit]
      have hg0 : hget (qsetAllPriorities s).heap r = some t := by
        show hget (s.tasks.foldl (fun h k => hmodify h k fun u => { u with priority := 0 })
          s.heap) r = some t
        rw [hget_foldMod_not_mem _ _ hrt]
        exact hg
      obtain ⟨hg1, _⟩ := submitFold_stable ts _ (Inv_qsetAllPriorities hs) hg0 hrt
      have hst := qstart_hget_stable hg1 hnp
      rw [statusAt, hst]
      simp [hc]
    | settle r' ok =>
      show statusAt (settle s r' ok) r = some Status.cancelled
        ∨ statusAt (settle s r' ok) r = some Status.done
      rw [settle]
      by_cases hinf : r' ∈ s.inflight
      · rw [if_pos hinf]
        cases hg2 : hget s.heap r' with
        | none =>
          left
          simp [statusAt, hg, hc]
        | some t2 =>
          by_cases hrr : r = r'
          · right
            subst hrr
            have hg1 : hget ({ s with
                drawLog := s.drawLog ++ [(t2.id, ok)]
                heap := hmodify s.heap r (fun u => { u with status := Status.done })
                inflight := s.inflight.erase r
                tasks := s.tasks.filter (fun r2 => !(idAt s r2 == some t2.id))
                runningTasks := s.runningTasks.filter (fun i => i != t2.id) } : QState).heap r
                = some { t with status := Status.done } := by
              show hget (hmodify s.heap r (fun u => { u with status := Status.done })) r = _
              rw [hget_hmodify, if_pos rfl, hg]
              rfl
            have hst := qstart_hget_stable hg1 (by simp)
            rw [statusAt, hst]
            rfl
          · left
            have hg1 : hget ({ s with
                drawLog := s.drawLog ++ [(t2.id, ok)]
                heap := hmodify s.heap r' (fun u => { u with status := Status.done })
                inflight := s.inflight.erase r'
                tasks := s.tasks.filter (fun r2 => !(idAt s r2 == some t2.id))
                runningTasks := s.runningTasks.filter (fun i => i != t2.id) } : QState).heap r
                = some t := by
              show hget (hmodify s.heap r' (fun u => { u with status := Status.done })) r = _
              rw [hget_hmodify, if_neg hrr]
              exact hg
            have hst := qstart_hget_stable hg1 hnp
            rw [statusAt, hst]
            simp [hc]
      · rw [if_neg hinf]
        left
        simp [statusAt, hg, hc]
    | reset =>
      left
      have hcl : hget (s.tasks.foldl (fun h k => hmodify h k fun u =>
          { u with status := Status.cancelled }) s.heap) r = some t := by
        rw [hget_foldMod_not_mem _ _ hrt]
        exact hg
      show statusAt { qclear s with tilesProp := [] } r = some Status.cancelled
      rw [statusAt]
      show (hget (s.tasks.foldl (fun h k => hmodify h k fun u =>
        { u with status := Status.cancelled }) s.heap) r).map (·.status)
        = some Status.cancelled
      rw [hcl]
      simp [hc]
  · left
    have hst := stepEv_stable hs hg hnp hnr hni e
    rw [statusAt, hst]
    simp [hc]

end PSVTiles

namespace PSVTiles

/-! ## Grid geometry lemmas -/

theorem int_singleWrap_eq_emod {c x : Int} (_hc : 0 < c) (h1 : -c ≤ x) (h2 : x < 2*c) :
    (if x < 0 then x + c else if c ≤ x then x - c else x) = x % c := by
  by_cases hx0 : x < 0
  · rw [if_pos hx0]
    have e1 : (x + c) % c = x % c := by
      have h0 := Int.add_mul_emod_self_left x c 1
      rw [mul_one] at h0
      exact h0
    have e2 : (x + c) % c = x + c := Int.emod_eq_of_lt (by omega) (by omega)
    omega
  · rw [if_neg hx0]
    by_cases hxc : c ≤ x
    · rw [if_pos hxc]
      have e1 : (x - c) % c = x % c := by
        have h0 := Int.add_mul_emod_self_left x c (-1)
        rw [mul_neg_one] at h0
        rw [sub_eq_add_neg]
        exact h0
      have e2 : (x - c) % c = x - c := Int.emod_eq_of_lt (by omega) (by omega)
      omega
    · rw [if_neg hxc]
      exact (Int.emod_eq_of_lt (by omega) (by omega)).symm

theorem tile_colWrap_eq {cols : Int} (x R : Int) (hc : 0 < cols) (h1 : -cols ≤ x)
    (h2 : x < 2 * cols) :
    (if x < 0 then (⟨x + cols, R⟩ : Tile) else if x ≥ cols then ⟨x - cols, R⟩ else ⟨x, R⟩)
      = ⟨x % cols, R⟩ := by
  have hwrap := int_singleWrap_eq_emod hc h1 h2
  by_cases hx : x < 0
  · rw [if_pos hx]
    rw [if_pos hx] at hwrap
    rw [Tile.mk.injEq]
    exact ⟨hwrap, rfl⟩
  · rw [if_neg hx]
    rw [if_neg hx] at hwrap
    by_cases h2' : x ≥ cols
    · rw [if_pos h2']
      rw [if_pos h2'] at hwrap
      rw [Tile.mk.injEq]
      exact ⟨hwrap, rfl⟩
    · rw [if_neg h2']
      rw [if_neg h2'] at hwrap
      rw [Tile.mk.injEq]
      exact ⟨hwrap, rfl⟩

theorem wrapTile_eq_spec {cols rows : Int} (t : Tile) (h4 : 4 ∣ cols)
    (hcpos : 0 < cols) (hrpos : 0 < rows)
    (hcl : -1 ≤ t.col) (hcu : t.col ≤ cols) (hrl : -1 ≤ t.row) (hru : t.row ≤ rows) :
    wrapTile cols rows t = wrapTileSpec cols rows t
      ∧ 0 ≤ (wrapTile cols rows t).col ∧ (wrapTile cols rows t).col < cols
      ∧ 0 ≤ (wrapTile cols rows t).row ∧ (wrapTile cols rows t).row < rows := by
  obtain ⟨k, hk⟩ := h4
  have hc2 : cols / 2 = 2 * k := by omega
  have hk1 : 1 ≤ k := by omega
  by_cases hr0 : t.row < 0
  · have heqW : wrapTile cols rows t = ⟨(t.col + cols / 2) % cols, -t.row - 1⟩ := by
      rw [wrapTile]
      simp only [if_pos hr0]
      exact tile_colWrap_eq _ _ hcpos (by omega) (by omega)
    have heqS : wrapTileSpec cols rows t = ⟨(t.col + cols / 2) % cols, -t.row - 1⟩ := by
      rw [wrapTileSpec]
      simp only [if_pos hr0]
    refine ⟨heqW.trans heqS.symm, ?_, ?_, ?_, ?_⟩ <;> rw [heqW]
    · exact Int.emod_nonneg _ (ne_of_gt hcpos)
    · exact Int.emod_lt_of_pos _ hcpos
    · show (0 : Int) ≤ -t.row - 1
      omega
    · show -t.row - 1 < rows
      omega
  · by_cases hr2 : t.row ≥ rows
    · have heqW : wrapTile cols rows t
          = ⟨(t.col + cols / 2) % cols, (rows - 1) - (t.row - rows)⟩ := by
        rw [wrapTile]
        simp only [if_neg hr0, if_pos hr2]
        exact tile_colWrap_eq _ _ hcpos (by omega) (by omega)
      have heqS : wrapTileSpec cols rows t
          = ⟨(t.col + cols / 2) % cols, (rows - 1) - (t.row - rows)⟩ := by
        rw [wrapTileSpec]
        simp only [if_neg hr0, if_pos hr2]
      refine ⟨heqW.trans heqS.symm, ?_, ?_, ?_, ?_⟩ <;> rw [heqW]
      · exact Int.emod_nonneg _ (ne_of_gt hcpos)
      · exact Int.emod_lt_of_pos _ hcpos
      · show (0 : Int) ≤ (rows - 1) - (t.row - rows)
        omega
      · show (rows - 1) - (t.row - rows) < rows
        omega
    · have heqW : wrapTile cols rows t = ⟨t.col % cols, t.row⟩ := by
        rw [wrapTile]
        simp only [if_neg hr0, if_neg hr2]
        show (if t.col < 0 then (⟨t.col + cols, t.row⟩ : Tile)
          else if t.col ≥ cols then ⟨t.col - cols, t.row⟩ else ⟨t.col, t.row⟩)
          = ⟨t.col % cols, t.row⟩
        exact tile_colWrap_eq _ _ hcpos (by omega) (by omega)
      have heqS : wrapTileSpec cols rows t = ⟨t.col % cols, t.row⟩ := by
        rw [wrapTileSpec]
        simp only [if_neg hr0, if_neg hr2]
      refine ⟨heqW.trans heqS.symm, ?_, ?_, ?_, ?_⟩ <;> rw [heqW]
      · exact Int.emod_nonneg _ (ne_of_gt hcpos)
      · exact Int.emod_lt_of_pos _ hcpos
      · show (0 : Int) ≤ t.row
        omega
      · show t.row < rows
        omega

end PSVTiles

namespace PSVTiles

/-! ## Candidate merge lemmas (__refresh) -/

theorem findCand_nil (col row : Int) : findCand [] col row = none := rfl

theorem findCand_cons (c : Candidate) (cs : List Candidate) (col row : Int) :
    findCand (c :: cs) col row
      = if c.row = row ∧ c.col = col then some c else findCand cs col row := by
  simp only [findCand, List.find?]
  by_cases h : c.row = row ∧ c.col = col
  · simp [h]
  · simp [h]

theorem addTileCandidate_pos {c : Candidate} {t : Tile} (cs : List Candidate) (a : Int)
    (hm : c.row = t.row ∧ c.col = t.col) :
    addTileCandidate (c :: cs) t a = { c with angle := min c.angle a } :: cs := by
  rw [addTileCandidate, if_pos hm]

theorem addTileCandidate_neg {c : Candidate} {t : Tile} (cs : List Candidate) (a : Int)
    (hm : ¬(c.row = t.row ∧ c.col = t.col)) :
    addTileCandidate (c :: cs) t a = c :: addTileCandidate cs t a := by
  rw [addTileCandidate, if_neg hm]

theorem findCand_addTile (l : List Candidate) (t : Tile) (a col row : Int) :
    findCand (addTileCandidate l t a) col row =
      if t.col = col ∧ t.row = row then
        (match findCand l col row with
         | some c => some { c with angle := min c.angle a }
         | none => some { col := t.col, row := t.row, angle := a })
      else findCand l col row := by
  induction l with
  | nil =>
    show findCand [{ col := t.col, row := t.row, angle := a }] col row = _
    rw [findCand_cons, findCand_nil]
    by_cases ht : t.col = col ∧ t.row = row
    · rw [if_pos ht, if_pos ⟨ht.2, ht.1⟩]
    · rw [if_neg ht, if_neg (fun h => ht ⟨h.2, h.1⟩)]
  | cons c cs ih =>
    by_cases hm : c.row = t.row ∧ c.col = t.col
    · rw [addTileCandidate_pos cs a hm, findCand_cons, findCand_cons]
      by_cases ht : t.col = col ∧ t.row = row
      · have hck : c.row = row ∧ c.col = col := ⟨hm.1.trans ht.2, hm.2.trans ht.1⟩
        rw [if_pos ht, if_pos hck]
        show some { c with angle := min c.angle a } = _
        rw [if_pos hck]
      · have hck : ¬(c.row = row ∧ c.col = col) := by
          intro h
          exact ht ⟨hm.2.symm.trans h.2, hm.1.symm.trans h.1⟩
        rw [if_neg ht]
        show (if ({ c with angle := min c.angle a } : Candidate).row = row
            ∧ ({ c with angle := min c.angle a } : Candidate).col = col
          then some { c with angle := min c.angle a } else findCand cs col row) = _
        rw [if_neg hck, if_neg hck]
    · rw [addTileCandidate_neg cs a hm, findCand_cons, findCand_cons]
      by_cases hck : c.row = row ∧ c.col = col
      · have ht : ¬(t.col = col ∧ t.row = row) := by
          intro h
          exact hm ⟨hck.1.trans h.2.symm, hck.2.trans h.1.symm⟩
        rw [if_neg ht, if_pos hck, if_pos hck]
      · rw [if_neg hck, if_neg hck, ih]

theorem candKeys_addTile (l : List Candidate) (t : Tile) (a : Int) :
    candKeys (addTileCandidate l t a)
      = if l.any (fun c => decide (c.row = t.row ∧ c.col = t.col)) then candKeys l
        else candKeys l ++ [(t.col, t.row)] := by
  induction l with
  | nil => rfl
  | cons c cs ih =>
    by_cases hm : c.row = t.row ∧ c.col = t.col
    · rw [addTileCandidate_pos cs a hm]
      have hany : ((c :: cs).any (fun c => decide (c.row = t.row ∧ c.col = t.col))) = true := by
        simp [List.any_cons, hm]
      rw [hany, if_pos rfl]
      rfl
    · rw [addTileCandidate_neg cs a hm]
      have hany : ((c :: cs).any (fun c => decide (c.row = t.row ∧ c.col = t.col)))
          = (cs.any (fun c => decide (c.row = t.row ∧ c.col = t.col))) := by
        simp [List.any_cons, hm]
      rw [hany]
      show (c.col, c.row) :: candKeys (addTileCandidate cs t a) = _
      rw [ih]
      by_cases ha : (cs.any (fun c => decide (c.row = t.row ∧ c.col = t.col))) = true
      · rw [if_pos ha, if_pos ha]
        rfl
      · rw [if_neg ha, if_neg ha]
        rfl

theorem findCand_addAll (a col row : Int) :
    ∀ (ts : List Tile) (acc : List Candidate),
      findCand (ts.foldl (fun ac t => addTileCandidate ac t a) acc) col row =
        if ts.any (fun t => decide (t.col = col ∧ t.row = row)) then
          some (match findCand acc col row with
                | some c => { c with angle := min c.angle a }
                | none => { col := col, row := row, angle := a })
        else findCand acc col row := by
  intro ts
  induction ts with
  | nil => intro acc; simp
  | cons t ts' ih =>
    intro acc
    rw [List.foldl_cons, ih]
    by_cases ht : t.col = col ∧ t.row = row
    · have hany : ((t :: ts').any (fun t => decide (t.col = col ∧ t.row = row))) = true := by
        simp [List.any_cons, ht]
      rw [hany, if_pos rfl]
      have hacc' : findCand (addTileCandidate acc t a) col row
          = some (match findCand acc col row with
                  | some c => { c with angle := min c.angle a }
                  | none => { col := col, row := row, angle := a }) := by
        rw [findCand_addTile, if_pos ht]
        cases findCand acc col row with
        | some c => rfl
        | none => rw [ht.1, ht.2]
      by_cases hts : (ts'.any (fun t => decide (t.col = col ∧ t.row = row))) = true
      · rw [if_pos hts, hacc']
        cases findCand acc col row with
        | some c => simp [min_assoc]
        | none => simp
      · rw [if_neg hts, hacc']
    · have hany : ((t :: ts').any (fun t => decide (t.col = col ∧ t.row = row)))
          = (ts'.any (fun t => decide (t.col = col ∧ t.row = row))) := by
        simp [List.any_cons, ht]
      rw [hany]
      have hacc' : findCand (addTileCandidate acc t a) col row = findCand acc col row := by
        rw [findCand_addTile, if_neg ht]
      rw [hacc']

theorem candKeys_nodup_addTile {l : List Candidate} (t : Tile) (a : Int)
    (h : (candKeys l).Nodup) : (candKeys (addTileCandidate l t a)).Nodup := by
  rw [candKeys_addTile]
  by_cases hany : (l.any (fun c => decide (c.row = t.row ∧ c.col = t.col))) = true
  · rw [if_pos hany]; exact h
  · rw [if_neg hany]
    apply List.Nodup.append h (List.nodup_singleton _)
    intro x hx hx'
    have hxe : x = (t.col, t.row) := by simpa using hx'
    subst hxe
    obtain ⟨c, hc, hck⟩ := List.mem_map.1 hx
    apply hany
    rw [List.any_eq_true]
    refine ⟨c, hc, ?_⟩
    have h1 : c.col = t.col := congrArg Prod.fst hck
    have h2 : c.row = t.row := congrArg Prod.snd hck
    simp [h1, h2]

theorem candKeys_nodup_addAll (a : Int) :
    ∀ (ts : List Tile) (acc : List Candidate), (candKeys acc).Nodup →
      (candKeys (ts.foldl (fun ac t => addTileCandidate ac t a) acc)).Nodup := by
  intro ts
  induction ts with
  | nil => intro acc h; exact h
  | cons t ts' ih =>
    intro acc h
    rw [List.foldl_cons]
    exact ih _ (candKeys_nodup_addTile t a h)

theorem any_key_iff_mem (ts : List Tile) (col row : Int) :
    ((ts.any (fun t => decide (t.col = col ∧ t.row = row))) = true)
      ↔ (⟨col, row⟩ : Tile) ∈ ts := by
  rw [List.any_eq_true]
  constructor
  · rintro ⟨t, ht, hd⟩
    have hd' := of_decide_eq_true hd
    have : t = ⟨col, row⟩ := by
      cases t
      simp at hd' ⊢
      exact ⟨hd'.1, hd'.2⟩
    exact this ▸ ht
  · intro h
    exact ⟨_, h, by simp⟩

theorem producingAngles_append (cols rows : Int) (ps : List ((Int × Int) × Int))
    (smp : (Int × Int) × Int) (col row : Int) :
    producingAngles cols rows (ps ++ [smp]) col row
      = producingAngles cols rows ps col row
        ++ (if (⟨col, row⟩ : Tile) ∈ getAdjacentTiles cols rows smp.1.1 smp.1.2
            then [smp.2] else []) := by
  rw [producingAngles, producingAngles, List.filter_append, List.map_append]
  congr 1
  by_cases h : (⟨col, row⟩ : Tile) ∈ getAdjacentTiles cols rows smp.1.1 smp.1.2
  · simp [h]
  · simp [h]

theorem refreshAux_spec (cols rows : Int) :
    ∀ (samples processed : List ((Int × Int) × Int)) (acc : List Candidate),
      (candKeys acc).Nodup →
      (∀ col row : Int,
        (∀ c, findCand acc col row = some c → c.col = col ∧ c.row = row
          ∧ c.angle ∈ producingAngles cols rows processed col row
          ∧ ∀ a ∈ producingAngles cols rows processed col row, c.angle ≤ a)
        ∧ (findCand acc col row = none →
            producingAngles cols rows processed col row = [])) →
      (candKeys (samples.foldl
        (fun acc2 s => (getAdjacentTiles cols rows s.1.1 s.1.2).foldl
          (fun ac t => addTileCandidate ac t s.2) acc2) acc)).Nodup
      ∧ ∀ col row : Int,
        (∀ c, findCand (samples.foldl
            (fun acc2 s => (getAdjacentTiles cols rows s.1.1 s.1.2).foldl
              (fun ac t => addTileCandidate ac t s.2) acc2) acc) col row = some c →
          c.col = col ∧ c.row = row
          ∧ c.angle ∈ producingAngles cols rows (processed ++ samples) col row
          ∧ ∀ a ∈ producingAngles cols rows (processed ++ samples) col row, c.angle ≤ a)
        ∧ (findCand (samples.foldl
            (fun acc2 s => (getAdjacentTiles cols rows s.1.1 s.1.2).foldl
              (fun ac t => addTileCandidate ac t s.2) acc2) acc) col row = none →
            producingAngles cols rows (processed ++ samples) col row = []) := by
  intro samples
  induction samples with
  | nil =>
    intro processed acc hnd hP
    rw [List.foldl_nil, List.append_nil]
    exact ⟨hnd, hP⟩
  | cons smp rest ih =>
    intro processed acc hnd hP
    rw [List.foldl_cons]
    have hassoc : processed ++ smp :: rest = (processed ++ [smp]) ++ rest := by
      simp
    rw [hassoc]
    apply ih (processed ++ [smp])
    · exact candKeys_nodup_addAll smp.2 _ acc hnd
    · intro col row
      have hlook := findCand_addAll smp.2 col row (getAdjacentTiles cols rows smp.1.1 smp.1.2) acc
      have hPA := producingAngles_append cols rows processed smp col row
      by_cases hmem : (⟨col, row⟩ : Tile) ∈ getAdjacentTiles cols rows smp.1.1 smp.1.2
      · have hany : ((getAdjacentTiles cols rows smp.1.1 smp.1.2).any
            (fun t => decide (t.col = col ∧ t.row = row))) = true :=
          (any_key_iff_mem _ col row).2 hmem
        rw [hany, if_pos rfl] at hlook
        rw [if_pos hmem] at hPA
        constructor
        · intro c hc
          rw [hlook] at hc
          cases hfc : findCand acc col row with
          | some c0 =>
            rw [hfc] at hc
            obtain ⟨h1, h2, h3, h4⟩ := (hP col row).1 c0 hfc
            have hce : c = { c0 with angle := min c0.angle smp.2 } := (Option.some.inj hc).symm
            subst hce
            refine ⟨h1, h2, ?_, ?_⟩
            · rw [hPA]
              rcases le_or_lt c0.angle smp.2 with hle | hlt
              · rw [min_eq_left hle]
                exact List.mem_append.2 (Or.inl h3)
              · rw [min_eq_right (le_of_lt hlt)]
                exact List.mem_append.2 (Or.inr (by simp))
            · intro a ha
              rw [hPA] at ha
              rcases List.mem_append.1 ha with ha1 | ha1
              · exact le_trans (min_le_left _ _) (h4 a ha1)
              · have : a = smp.2 := by simpa using ha1
                rw [this]
                exact min_le_right _ _
          | none =>
            rw [hfc] at hc
            have hPA0 : producingAngles cols rows processed col row = [] :=
              (hP col row).2 hfc
            have hce : c = { col := col, row := row, angle := smp.2 } :=
              (Option.some.inj hc).symm
            subst hce
            refine ⟨rfl, rfl, ?_, ?_⟩
            · rw [hPA, hPA0]
              simp
            · intro a ha
              rw [hPA, hPA0] at ha
              have : a = smp.2 := by simpa using ha
              rw [this]
        · intro hc
          rw [hlook] at hc
          exact absurd hc (by cases findCand acc col row <;> simp)
      · have hany : ((getAdjacentTiles cols rows smp.1.1 smp.1.2).any
            (fun t => decide (t.col = col ∧ t.row = row))) = false := by
          rw [Bool.eq_false_iff]
          intro h
          exact hmem ((any_key_iff_mem _ col row).1 h)
        rw [hany] at hlook
        rw [if_neg hmem] at hPA
        rw [show (if (false : Bool) = true then
            some (match findCand acc col row with
                  | some c => { c with angle := min c.angle smp.2 }
                  | none => { col := col, row := row, angle := smp.2 })
          else findCand acc col row) = findCand acc col row from by simp] at hlook
        rw [List.append_nil] at hPA
        constructor
        · intro c hc
          rw [hlook] at hc
          obtain ⟨h1, h2, h3, h4⟩ := (hP col row).1 c hc
          exact ⟨h1, h2, hPA ▸ h3, fun a ha => h4 a (hPA ▸ ha)⟩
        · intro hc
          rw [hlook] at hc
          rw [hPA]
          exact (hP col row).2 hc

theorem findCand_self {l : List Candidate} (hnd : (candKeys l).Nodup) {c : Candidate}
    (hc : c ∈ l) : findCand l c.col c.row = some c := by
  apply find?_eq_some_of_unique hc (by simp)
  intro y hy hpy
  have hyk := of_decide_eq_true hpy
  have := List.inj_on_of_nodup_map hnd hy hc
  apply this
  show (y.col, y.row) = (c.col, c.row)
  rw [hyk.1, hyk.2]

theorem findCand_mem {l : List Candidate} {col row : Int} {c : Candidate}
    (h : findCand l col row = some c) : c ∈ l ∧ c.row = row ∧ c.col = col := by
  refine ⟨List.mem_of_find?_eq_some h, ?_⟩
  have := List.find?_some h
  exact of_decide_eq_true this

end PSVTiles

namespace PSVTiles

/-! ## Projection helpers for the claims -/

theorem qsetPriority_proj (s : QState) (i : String) (p : Int) :
    (qsetPriority s i p).heap.map (·.2.id) = s.heap.map (·.2.id)
      ∧ (qsetPriority s i p).tilesProp = s.tilesProp
      ∧ (qsetPriority s i p).tasks = s.tasks := by
  rw [qsetPriority]
  cases hfind : s.tasks.find? (fun r => idAt s r == some i) with
  | none => exact ⟨rfl, rfl, rfl⟩
  | some r =>
    refine ⟨?_, rfl, rfl⟩
    exact hmodify_ids s.heap r (fun u => { u with priority := p }) (fun u => rfl)

theorem submitFold_known : ∀ (ts : List (String × Int)) (s : QState),
    (∀ ti ∈ ts, ti.1 ∈ s.tilesProp) →
    (ts.foldl submitOne s).heap.map (·.2.id) = s.heap.map (·.2.id)
      ∧ (ts.foldl submitOne s).tilesProp = s.tilesProp
      ∧ (ts.foldl submitOne s).tasks = s.tasks := by
  intro ts
  induction ts with
  | nil => intro s _; exact ⟨rfl, rfl, rfl⟩
  | cons ti tl ih =>
    intro s h
    rw [List.foldl_cons]
    have hti : ti.1 ∈ s.tilesProp := h ti (List.mem_cons_self _ _)
    have hsub : submitOne s ti = qsetPriority s ti.1 ti.2 := by
      rw [submitOne, if_pos hti]
    rw [hsub]
    obtain ⟨h1, h2, h3⟩ := qsetPriority_proj s ti.1 ti.2
    obtain ⟨g1, g2, g3⟩ := ih (qsetPriority s ti.1 ti.2)
      (fun ti' hti' => h2 ▸ h ti' (List.mem_cons_of_mem _ hti'))
    exact ⟨g1.trans h1, g2.trans h2, g3.trans h3⟩

theorem qstart_tasks (s : QState) : (qstart s).tasks = s.tasks :=
  qstartAux_tasks _ s

theorem qstart_tilesProp (s : QState) : (qstart s).tilesProp = s.tilesProp :=
  qstartAux_tilesProp _ s

theorem qstart_heap_ids (s : QState) :
    (qstart s).heap.map (·.2.id) = s.heap.map (·.2.id) :=
  qstartAux_heap_ids _ s

theorem qstart_drawLog (s : QState) : (qstart s).drawLog = s.drawLog :=
  qstartAux_drawLog _ s

theorem applySubmit_known {s : QState} {ts : List (String × Int)}
    (h : ∀ ti ∈ ts, ti.1 ∈ s.tilesProp) :
    (applySubmit s ts).heap.map (·.2.id) = s.heap.map (·.2.id)
      ∧ (applySubmit s ts).tilesProp = s.tilesProp
      ∧ (applySubmit s ts).tasks = s.tasks := by
  rw [applySubmit]
  have hall : (qsetAllPriorities s).heap.map (·.2.id) = s.heap.map (·.2.id) := by
    show ((s.tasks.foldl (fun h r => hmodify h r fun u => { u with priority := 0 })
      s.heap).map (·.2.id)) = s.heap.map (·.2.id)
    exact @foldMod_ids (fun u => { u with priority := 0 }) (fun u => rfl) s.tasks s.heap
  obtain ⟨g1, g2, g3⟩ := submitFold_known ts (qsetAllPriorities s) h
  refine ⟨?_, ?_, ?_⟩
  · rw [qstart_heap_ids, g1, hall]
  · rw [qstart_tilesProp, g2]
    rfl
  · rw [qstart_tasks, g3]
    rfl

theorem settle_tilesProp (s : QState) (r : Nat) (ok : Bool) :
    (settle s r ok).tilesProp = s.tilesProp := by
  rw [settle]
  by_cases hinfl : r ∈ s.inflight
  · rw [if_pos hinfl]
    cases hget s.heap r with
    | none => rfl
    | some t => rw [qstart_tilesProp]
  · rw [if_neg hinfl]

theorem submitFold_tilesProp_mono : ∀ (ts : List (String × Int)) (s : QState) (i : String),
    i ∈ s.tilesProp → i ∈ (ts.foldl submitOne s).tilesProp := by
  intro ts
  induction ts with
  | nil => intro s i h; exact h
  | cons ti tl ih =>
    intro s i h
    rw [List.foldl_cons]
    apply ih
    rw [submitOne]
    by_cases hmem : ti.1 ∈ s.tilesProp
    · rw [if_pos hmem]
      exact ((qsetPriority_proj s ti.1 ti.2).2.1) ▸ h
    · rw [if_neg hmem]
      show i ∈ s.tilesProp ++ [ti.1]
      exact List.mem_append.2 (Or.inl h)

theorem stepEv_tilesProp_mono {s : QState} {e : AEvent} (he : e ≠ AEvent.reset) :
    ∀ i ∈ s.tilesProp, i ∈ (stepEv s e).tilesProp := by
  intro i hi
  cases e with
  | submit ts =>
    show i ∈ (applySubmit s ts).tilesProp
    rw [applySubmit, qstart_tilesProp]
    exact submitFold_tilesProp_mono ts _ i hi
  | settle r ok =>
    show i ∈ (settle s r ok).tilesProp
    rw [settle_tilesProp]
    exact hi
  | reset => exact absurd rfl he

theorem qstart_eq_self {s : QState}
    (h : ∀ r t, r ∈ s.tasks → hget s.heap r = some t →
      ¬(t.status = .pending ∧ 0 < t.priority)) : qstart s = s := by
  rw [qstart, qstartAux]
  by_cases hc : s.concurency ≤ s.runningTasks.length
  · rw [if_pos hc]
  · rw [if_neg hc, selectNext_none h]

theorem applySubmit_nil_of_tasks_nil {s : QState} (h : s.tasks = []) :
    applySubmit s [] = s := by
  rw [applySubmit, List.foldl_nil]
  have h1 : qsetAllPriorities s = s := by
    rw [qsetAllPriorities]
    have h2 : s.tasks.foldl (fun h r => hmodify h r fun t => { t with priority := 0 })
        s.heap = s.heap := by
      rw [h, List.foldl_nil]
    rw [h2]
  rw [h1]
  apply qstart_eq_self
  intro r t hr
  rw [h] at hr
  simp at hr

/-- The double-`setPriority` trace used by the dedup claim: submitting a known
tile twice updates the single existing task to the last priority. -/
theorem applySubmit_dup_priority {s : QState} (hs : Inv s) {r : Nat} {t : TaskObj}
    {i : String} (hr : r ∈ s.tasks) (hg : hget s.heap r = some t) (hid : t.id = i)
    (hmem : i ∈ s.tilesProp) (p1 p2 : Int) :
    ∃ t', hget (applySubmit s [(i, p1), (i, p2)]).heap r = some t'
      ∧ t'.id = i ∧ t'.priority = p2
      ∧ r ∈ (applySubmit s [(i, p1), (i, p2)]).tasks := by
  have hstep : ∀ (s' : QState), Inv s' → ∀ t0, r ∈ s'.tasks → hget s'.heap r = some t0 →
      t0.id = i → s'.tilesProp = s.tilesProp →
      ∀ p : Int, hget (submitOne s' (i, p)).heap r = some { t0 with priority := p }
        ∧ (submitOne s' (i, p)).tasks = s'.tasks
        ∧ (submitOne s' (i, p)).tilesProp = s'.tilesProp := by
    intro s' hs' t0 hr' hg' hid' htp p
    have hmem' : i ∈ s'.tilesProp := htp ▸ hmem
    have hsub : submitOne s' (i, p) = qsetPriority s' i p := by
      rw [submitOne]
      exact if_pos hmem'
    have hfind : s'.tasks.find? (fun r' => idAt s' r' == some i) = some r := by
      apply find?_eq_some_of_unique hr'
      · show (idAt s' r == some i) = true
        rw [idAt, hg']
        simp [hid']
      · intro y hy hpy
        have hyid : idAt s' y = some i := by simpa using hpy
        have hrid : idAt s' r = some i := by rw [idAt, hg']; simp [hid']
        exact filterMap_nodup_inj hs'.tIdsNd hy hr' hyid hrid
    rw [hsub, qsetPriority, hfind]
    refine ⟨?_, rfl, rfl⟩
    show hget (hmodify s'.heap r (fun u => { u with priority := p })) r = _
    rw [hget_hmodify, if_pos rfl, hg']
    rfl
  -- state after setAllPriorities
  have hg0 : hget (qsetAllPriorities s).heap r = some { t with priority := 0 } := by
    show hget (s.tasks.foldl (fun h k => hmodify h k fun u => { u with priority := 0 })
      s.heap) r = _
    rw [@hget_foldMod_mem (fun u => { u with priority := 0 }) (fun u => rfl) r s.tasks
      s.heap hr, hg]
    rfl
  have hs0 := Inv_qsetAllPriorities hs
  obtain ⟨hg1, ht1, hp1⟩ := hstep (qsetAllPriorities s) hs0 { t with priority := 0 }
    hr hg0 hid rfl p1
  have hs1 := Inv_submitOne hs0 (i, p1)
  obtain ⟨hg2, ht2, hp2⟩ := hstep (submitOne (qsetAllPriorities s) (i, p1)) hs1
    { t with priority := p1 } (ht1 ▸ hr) hg1 hid hp1 p2
  have hshape : applySubmit s [(i, p1), (i, p2)]
      = qstart (submitOne (submitOne (qsetAllPriorities s) (i, p1)) (i, p2)) := rfl
  rw [hshape]
  have hproj := qstartAux_hget_proj
    ((submitOne (submitOne (qsetAllPriorities s) (i, p1)) (i, p2)).tasks.length + 1)
    (submitOne (submitOne (qsetAllPriorities s) (i, p1)) (i, p2)) r
  rw [hg2] at hproj
  cases hgq : hget (qstart (submitOne (submitOne (qsetAllPriorities s) (i, p1))
      (i, p2))).heap r with
  | none =>
    rw [show qstart (submitOne (submitOne (qsetAllPriorities s) (i, p1)) (i, p2))
      = qstartAux ((submitOne (submitOne (qsetAllPriorities s) (i, p1)) (i, p2)).tasks.length
        + 1) (submitOne (submitOne (qsetAllPriorities s) (i, p1)) (i, p2)) from rfl] at hgq
    rw [hgq] at hproj
    simp at hproj
  | some t' =>
    have hgq' : hget (qstartAux ((submitOne (submitOne (qsetAllPriorities s) (i, p1))
        (i, p2)).tasks.length + 1) (submitOne (submitOne (qsetAllPriorities s) (i, p1))
        (i, p2))).heap r = some t' := hgq
    rw [hgq'] at hproj
    simp only [Option.map_some', Option.some.injEq, Prod.mk.injEq] at hproj
    refine ⟨t', rfl, hproj.1 ▸ hid, hproj.2, ?_⟩
    show r ∈ (qstart _).tasks
    rw [qstart_tasks, ht2, ht1]
    exact hr
end PSVTiles

namespace PSVTiles

/-- A task whose priority is not strictly positive is never started by the
start loop, whatever its status. -/
theorem qstartAux_ineligible :
    ∀ (n : Nat) (s : QState) (r : Nat) (t : TaskObj),
      hget s.heap r = some t → t.priority ≤ 0 →
      hget (qstartAux n s).heap r = some t := by
  intro n
  induction n with
  | zero => intro s r t hg _; exact hg
  | succ m ih =>
    intro s r t hg hp
    rw [qstartAux]
    by_cases hc : s.concurency ≤ s.runningTasks.length
    · rw [if_pos hc]; exact hg
    · rw [if_neg hc]
      cases hsel : selectNext s with
      | none => exact hg
      | some rt =>
        obtain ⟨_, hgsel, _, hpri⟩ := selectNext_spec hsel
        apply ih
        · show hget (startStep s rt).heap r = some t
          simp only [startStep]
          rw [hget_hmodify]
          by_cases hr : r = rt.1
          · subst hr
            rw [hg] at hgsel
            have ht : t = rt.2 := Option.some.inj hgsel
            rw [ht] at hp
            omega
          · rw [if_neg hr]; exact hg
        · exact hp

theorem qstart_idAt (s : QState) (r : Nat) : idAt (qstart s) r = idAt s r := by
  have h := qstartAux_hget_proj (s.tasks.length + 1) s r
  show (hget (qstart s).heap r).map (·.id) = (hget s.heap r).map (·.id)
  have h1 : ∀ (o : Option TaskObj),
      (o.map (fun t => (t.id, t.priority))).map Prod.fst = o.map (·.id) := by
    intro o; cases o <;> rfl
  rw [← h1, ← h1]
  show ((hget (qstartAux (s.tasks.length + 1) s).heap r).map _).map _ = _
  rw [h]

/-- The observable effects of a fetch settlement: the draw is recorded with
the fetch outcome, the task ends DONE (the rejection was caught by the
placeholder branch), the task's id leaves the queue map, and ids and
`props.tiles` are untouched. -/
theorem settle_char {s : QState} {r : Nat} {t : TaskObj} (hinfl : r ∈ s.inflight)
    (hg : hget s.heap r = some t) (ok : Bool) :
    (settle s r ok).drawLog = s.drawLog ++ [(t.id, ok)]
    ∧ statusAt (settle s r ok) r = some Status.done
    ∧ (settle s r ok).tasks = s.tasks.filter (fun r' => !(idAt s r' == some t.id))
    ∧ (∀ r', idAt (settle s r ok) r' = idAt s r')
    ∧ (settle s r ok).tilesProp = s.tilesProp := by
  have hset : settle s r ok = qstart { s with
      drawLog := s.drawLog ++ [(t.id, ok)]
      heap := hmodify s.heap r (fun u => { u with status := Status.done })
      inflight := s.inflight.erase r
      tasks := s.tasks.filter (fun r' => !(idAt s r' == some t.id))
      runningTasks := s.runningTasks.filter (fun i => i != t.id) } := by
    rw [settle, if_pos hinfl, hg]
  rw [hset]
  refine ⟨?_, ?_, ?_, ?_, ?_⟩
  · rw [qstart_drawLog]
  · have hg1 : hget ({ s with
        drawLog := s.drawLog ++ [(t.id, ok)]
        heap := hmodify s.heap r (fun u => { u with status := Status.done })
        inflight := s.inflight.erase r
        tasks := s.tasks.filter (fun r' => !(idAt s r' == some t.id))
        runningTasks := s.runningTasks.filter (fun i => i != t.id) } : QState).heap r
        = some { t with status := Status.done } := by
      show hget (hmodify s.heap r (fun u => { u with status := Status.done })) r = _
      rw [hget_hmodify, if_pos rfl, hg]
      rfl
    have := qstart_hget_stable hg1 (by simp)
    rw [statusAt, this]
    rfl
  · rw [qstart_tasks]
  · intro r'
    rw [qstart_idAt]
    show (hget (hmodify s.heap r (fun u => { u with status := Status.done })) r').map (·.id)
      = idAt s r'
    exact @idProj_hmodify s.heap r (fun u => { u with status := Status.done })
      (fun u => rfl) r'
  · rw [qstart_tilesProp]

end PSVTiles

namespace PSVTiles

/-! ## Claim theorems -/

/-- C3: for cols a multiple of 4, rows a multiple of 2, and a sample point
`(col, row)` with `col ∈ [0, cols]` and `row ∈ [0, rows]`, `__getAdjacentTiles`
returns exactly the four tiles with top-left corners `(col-1,row-1)`,
`(col,row-1)`, `(col,row)`, `(col-1,row)`, each independently wrapped by the
reflect-at-pole / hemisphere-shift / column-modulo rule, and every returned
tile lies in `[0, cols) × [0, rows)`. -/
theorem claimC3_adjacent_tiles (cols rows col row : Int)
    (h4 : 4 ∣ cols) (h2 : 2 ∣ rows) (hc0 : cols ≠ 0) (hr0 : rows ≠ 0)
    (hcl : 0 ≤ col) (hcu : col ≤ cols) (hrl : 0 ≤ row) (hru : row ≤ rows) :
    getAdjacentTiles cols rows col row
      = [wrapTileSpec cols rows ⟨col - 1, row - 1⟩, wrapTileSpec cols rows ⟨col, row - 1⟩,
         wrapTileSpec cols rows ⟨col, row⟩, wrapTileSpec cols rows ⟨col - 1, row⟩]
    ∧ ∀ t ∈ getAdjacentTiles cols rows col row,
        0 ≤ t.col ∧ t.col < cols ∧ 0 ≤ t.row ∧ t.row < rows := by
  have hcpos : 0 < cols := lt_of_le_of_ne (le_trans hcl hcu) (Ne.symm hc0)
  have hrpos : 0 < rows := lt_of_le_of_ne (le_trans hrl hru) (Ne.symm hr0)
  have w1 := wrapTile_eq_spec (⟨col - 1, row - 1⟩ : Tile) h4 hcpos hrpos
    (by dsimp only; omega) (by dsimp only; omega) (by dsimp only; omega) (by dsimp only; omega)
  have w2 := wrapTile_eq_spec (⟨col, row - 1⟩ : Tile) h4 hcpos hrpos
    (by dsimp only; omega) (by dsimp only; omega) (by dsimp only; omega) (by dsimp only; omega)
  have w3 := wrapTile_eq_spec (⟨col, row⟩ : Tile) h4 hcpos hrpos
    (by dsimp only; omega) (by dsimp only; omega) (by dsimp only; omega) (by dsimp only; omega)
  have w4 := wrapTile_eq_spec (⟨col - 1, row⟩ : Tile) h4 hcpos hrpos
    (by dsimp only; omega) (by dsimp only; omega) (by dsimp only; omega) (by dsimp only; omega)
  constructor
  · show [wrapTile cols rows ⟨col - 1, row - 1⟩, wrapTile cols rows ⟨col, row - 1⟩,
        wrapTile cols rows ⟨col, row⟩, wrapTile cols rows ⟨col - 1, row⟩] = _
    rw [w1.1, w2.1, w3.1, w4.1]
  · intro t ht
    have ht' : t = wrapTile cols rows ⟨col - 1, row - 1⟩
        ∨ t = wrapTile cols rows ⟨col, row - 1⟩
        ∨ t = wrapTile cols rows ⟨col, row⟩
        ∨ t = wrapTile cols rows ⟨col - 1, row⟩ := by
      have ht2 : t ∈ [wrapTile cols rows ⟨col - 1, row - 1⟩, wrapTile cols rows ⟨col, row - 1⟩,
          wrapTile cols rows ⟨col, row⟩, wrapTile cols rows ⟨col - 1, row⟩] := ht
      simpa using ht2
    rcases ht' with h | h | h | h <;> subst h
    · exact ⟨w1.2.1, w1.2.2.1, w1.2.2.2.1, w1.2.2.2.2⟩
    · exact ⟨w2.2.1, w2.2.2.1, w2.2.2.2.1, w2.2.2.2.2⟩
    · exact ⟨w3.2.1, w3.2.2.1, w3.2.2.2.1, w3.2.2.2.2⟩
    · exact ⟨w4.2.1, w4.2.2.1, w4.2.2.2.1, w4.2.2.2.2⟩

theorem claimC3_witness :
    (getAdjacentTiles 16 8 0 0
      = [wrapTileSpec 16 8 ⟨-1, -1⟩, wrapTileSpec 16 8 ⟨0, -1⟩,
         wrapTileSpec 16 8 ⟨0, 0⟩, wrapTileSpec 16 8 ⟨-1, 0⟩]
      ∧ ∀ t ∈ getAdjacentTiles 16 8 0 0, 0 ≤ t.col ∧ t.col < 16 ∧ 0 ≤ t.row ∧ t.row < 8)
    ∧ wrapTile 16 8 ⟨0, -1⟩ = ⟨8, 0⟩
    ∧ wrapTile 16 8 ⟨0, 8⟩ = ⟨8, 7⟩
    ∧ wrapTile 16 8 ⟨-1, 3⟩ = ⟨15, 3⟩ :=
  ⟨claimC3_adjacent_tiles 16 8 0 0 (by decide) (by decide) (by decide) (by decide)
    (by decide) (by decide) (by decide) (by decide), by decide, by decide, by decide⟩

end PSVTiles

namespace PSVTiles

/-- C7: one visibility refresh lists each tile position at most once, the
angle stored for a candidate is the minimum angular distance over all visible
samples that produced that tile among their four adjacent tiles, and every
tile produced by some sample does appear in the candidate list. -/
theorem claimC7_candidate_merge (cols rows : Int) (samples : List ((Int × Int) × Int)) :
    (candKeys (refreshCandidates cols rows samples)).Nodup
    ∧ (∀ c ∈ refreshCandidates cols rows samples,
        c.angle ∈ producingAngles cols rows samples c.col c.row
        ∧ ∀ a ∈ producingAngles cols rows samples c.col c.row, c.angle ≤ a)
    ∧ ∀ smp ∈ samples, ∀ t ∈ getAdjacentTiles cols rows smp.1.1 smp.1.2,
        ∃ c ∈ refreshCandidates cols rows samples, c.col = t.col ∧ c.row = t.row := by
  have hbase : ∀ col row : Int,
      (∀ c, findCand ([] : List Candidate) col row = some c → c.col = col ∧ c.row = row
        ∧ c.angle ∈ producingAngles cols rows [] col row
        ∧ ∀ a ∈ producingAngles cols rows [] col row, c.angle ≤ a)
      ∧ (findCand ([] : List Candidate) col row = none →
          producingAngles cols rows [] col row = []) := by
    intro col row
    constructor
    · intro c hc
      exact absurd hc (by simp [findCand])
    · intro _
      rfl
  have hmaster := refreshAux_spec cols rows samples [] []
    (by simp [candKeys]) hbase
  rw [List.nil_append] at hmaster
  obtain ⟨hnd, hP⟩ := hmaster
  have hndr : (candKeys (refreshCandidates cols rows samples)).Nodup := hnd
  refine ⟨hndr, ?_, ?_⟩
  · intro c hc
    have hfind : findCand (refreshCandidates cols rows samples) c.col c.row = some c :=
      findCand_self hndr hc
    obtain ⟨_, _, h3, h4⟩ := (hP c.col c.row).1 c hfind
    exact ⟨h3, h4⟩
  · intro smp hsmp t ht
    have hne : producingAngles cols rows samples t.col t.row ≠ [] := by
      have hin : smp.2 ∈ producingAngles cols rows samples t.col t.row := by
        rw [producingAngles]
        exact List.mem_map.2 ⟨smp, List.mem_filter.2 ⟨hsmp, decide_eq_true ht⟩, rfl⟩
      intro h0
      rw [h0] at hin
      simp at hin
    cases hfc : findCand (refreshCandidates cols rows samples) t.col t.row with
    | none => exact absurd ((hP t.col t.row).2 hfc) hne
    | some c =>
      obtain ⟨hcm, hrow, hcol⟩ := findCand_mem hfc
      exact ⟨c, hcm, hcol, hrow⟩

theorem claimC7_witness :
    (candKeys (refreshCandidates 16 8 [((0, 0), 5), ((1, 0), 3)])).Nodup
    ∧ (∀ c ∈ refreshCandidates 16 8 [((0, 0), 5), ((1, 0), 3)],
        c.angle ∈ producingAngles 16 8 [((0, 0), 5), ((1, 0), 3)] c.col c.row
        ∧ ∀ a ∈ producingAngles 16 8 [((0, 0), 5), ((1, 0), 3)] c.col c.row, c.angle ≤ a)
    ∧ ∀ smp ∈ [(((0 : Int), (0 : Int)), (5 : Int)), ((1, 0), 3)],
        ∀ t ∈ getAdjacentTiles 16 8 smp.1.1 smp.1.2,
        ∃ c ∈ refreshCandidates 16 8 [((0, 0), 5), ((1, 0), 3)],
          c.col = t.col ∧ c.row = t.row :=
  claimC7_candidate_merge 16 8 [((0, 0), 5), ((1, 0), 3)]

end PSVTiles

namespace PSVTiles

theorem truthyNum_eq_false_iff (o : Option Int) :
    truthyNum o = false ↔ o = none ∨ o = some 0 := by
  cases o with
  | none => simp [truthyNum]
  | some n => simp [truthyNum]

/-- C9: `loadTexture` rejects with one of the two descriptive validation
messages exactly when the configuration is not an object, lacks width, cols,
rows or tileUrl, or has cols not a multiple of 4 or rows not a multiple of 2;
the rejection is decided by the configuration alone, before any scheduler
state is read or modified. -/
theorem claimC9_loadTexture_validation (s : QState) (p : PanoConfig) :
    ((∃ e, loadTexture s p = Except.error e) ↔ specInvalid p)
    ∧ (∀ e, loadTexture s p = Except.error e →
        e = "Invalid panorama configuration, are you using the right adapter?."
        ∨ e = "Panorama cols must be multiple of 4 and rows must be multiple of 2.")
    ∧ (∀ e, loadTexture s p = Except.error e →
        ∀ s2 : QState, loadTexture s2 p = Except.error e) := by
  have hspec : specInvalid p ↔ validatePanorama p ≠ none := by
    rw [validatePanorama]
    by_cases h1 : ¬ p.isObject ∨ truthyNum p.width = false ∨ truthyNum p.cols = false
        ∨ truthyNum p.rows = false ∨ ¬ p.hasTileUrl
    · rw [if_pos h1]
      have hsp : specInvalid p := by
        rw [specInvalid]
        rcases h1 with h | h | h | h | h
        · exact Or.inl (Bool.eq_false_iff.2 h)
        · rcases (truthyNum_eq_false_iff p.width).1 h with h' | h'
          · exact Or.inr (Or.inl h')
          · exact Or.inr (Or.inr (Or.inl h'))
        · rcases (truthyNum_eq_false_iff p.cols).1 h with h' | h'
          · exact Or.inr (Or.inr (Or.inr (Or.inl h')))
          · exact Or.inr (Or.inr (Or.inr (Or.inr (Or.inl h'))))
        · rcases (truthyNum_eq_false_iff p.rows).1 h with h' | h'
          · exact Or.inr (Or.inr (Or.inr (Or.inr (Or.inr (Or.inl h')))))
          · exact Or.inr (Or.inr (Or.inr (Or.inr (Or.inr (Or.inr (Or.inl h'))))))
        · exact Or.inr (Or.inr (Or.inr (Or.inr (Or.inr (Or.inr (Or.inr
            (Or.inl (Bool.eq_false_iff.2 h))))))))
      simp [hsp]
    · rw [if_neg h1]
      push_neg at h1
      obtain ⟨ho, hw, hc, hr, ht⟩ := h1
      by_cases h2 : p.cols.getD 0 % 4 ≠ 0 ∨ p.rows.getD 0 % 2 ≠ 0
      · rw [if_pos h2]
        have hsp : specInvalid p := by
          rw [specInvalid]
          rcases h2 with h | h
          · refine Or.inr (Or.inr (Or.inr (Or.inr (Or.inr (Or.inr (Or.inr (Or.inr
              (Or.inl ?_))))))))
            rw [Int.dvd_iff_emod_eq_zero]
            exact h
          · refine Or.inr (Or.inr (Or.inr (Or.inr (Or.inr (Or.inr (Or.inr (Or.inr
              (Or.inr ?_))))))))
            rw [Int.dvd_iff_emod_eq_zero]
            exact h
        simp [hsp]
      · rw [if_neg h2]
        push_neg at h2
        obtain ⟨h4, hr2⟩ := h2
        have hns : ¬ specInvalid p := by
          rw [specInvalid]
          intro hsp
          rcases hsp with h | h | h | h | h | h | h | h | h | h
          · simp [h] at ho
          · exact hw ((truthyNum_eq_false_iff p.width).2 (Or.inl h))
          · exact hw ((truthyNum_eq_false_iff p.width).2 (Or.inr h))
          · exact hc ((truthyNum_eq_false_iff p.cols).2 (Or.inl h))
          · exact hc ((truthyNum_eq_false_iff p.cols).2 (Or.inr h))
          · exact hr ((truthyNum_eq_false_iff p.rows).2 (Or.inl h))
          · exact hr ((truthyNum_eq_false_iff p.rows).2 (Or.inr h))
          · simp [h] at ht
          · rw [Int.dvd_iff_emod_eq_zero] at h
            exact h h4
          · rw [Int.dvd_iff_emod_eq_zero] at h
            exact h hr2
        simp [hns]
  have hmsg : ∀ m, validatePanorama p = some m →
      m = "Invalid panorama configuration, are you using the right adapter?."
      ∨ m = "Panorama cols must be multiple of 4 and rows must be multiple of 2." := by
    intro m hm
    rw [validatePanorama] at hm
    by_cases h1 : ¬ p.isObject ∨ truthyNum p.width = false ∨ truthyNum p.cols = false
        ∨ truthyNum p.rows = false ∨ ¬ p.hasTileUrl
    · rw [if_pos h1] at hm
      exact Or.inl (Option.some.inj hm).symm
    · rw [if_neg h1] at hm
      by_cases h2 : p.cols.getD 0 % 4 ≠ 0 ∨ p.rows.getD 0 % 2 ≠ 0
      · rw [if_pos h2] at hm
        exact Or.inr (Option.some.inj hm).symm
      · rw [if_neg h2] at hm
        exact absurd hm (by simp)
  refine ⟨?_, ?_, ?_⟩
  · rw [hspec]
    rw [loadTexture]
    cases hv : validatePanorama p with
    | none => simp
    | some m => simp
  · intro e he
    rw [loadTexture] at he
    cases hv : validatePanorama p with
    | none =>
      rw [hv] at he
      exact absurd he (by simp)
    | some m =>
      rw [hv] at he
      have : m = e := Except.error.inj he
      exact this ▸ hmsg m hv
  · intro e he s2
    rw [loadTexture] at he
    rw [loadTexture]
    cases hv : validatePanorama p with
    | none =>
      rw [hv] at he
      exact absurd he (by simp)
    | some m =>
      rw [hv] at he
      exact he

theorem claimC9_witness :
    (∃ e, loadTexture initState ⟨true, some 1024, some 15, some 8, true⟩ = Except.error e)
    ∧ ("Panorama cols must be multiple of 4 and rows must be multiple of 2."
          = "Invalid panorama configuration, are you using the right adapter?."
        ∨ "Panorama cols must be multiple of 4 and rows must be multiple of 2."
          = "Panorama cols must be multiple of 4 and rows must be multiple of 2.")
    ∧ loadTexture { initState with drawLog := [("x", true)] }
        ⟨true, some 1024, some 15, some 8, true⟩
        = Except.error "Panorama cols must be multiple of 4 and rows must be multiple of 2." :=
  ⟨(claimC9_loadTexture_validation initState ⟨true, some 1024, some 15, some 8, true⟩).1.mpr
     (by decide),
   (claimC9_loadTexture_validation initState ⟨true, some 1024, some 15, some 8, true⟩).2.1
     "Panorama cols must be multiple of 4 and rows must be multiple of 2." rfl,
   (claimC9_loadTexture_validation initState ⟨true, some 1024, some 15, some 8, true⟩).2.2
     "Panorama cols must be multiple of 4 and rows must be multiple of 2." rfl
     { initState with drawLog := [("x", true)] }⟩

end PSVTiles

namespace PSVTiles

/-- C4: over every event sequence of visibility refreshes (submits) and fetch
settlements, the number of tasks simultaneously in the RUNNING status never
exceeds the configured concurrency limit `QUEUE_CONCURENCY = 2`. -/
theorem claimC4_concurrency_bound (evs : List AEvent)
    (h : ∀ e ∈ evs, e ≠ AEvent.reset) : countRunning (run evs) ≤ 2 := by
  have hinv := InvNR_run evs h
  have h1 := hinv.rtLen
  have h2 := hinv.rtCap
  have h3 := hinv.conc
  omega

theorem claimC4_witness :
    countRunning (run [AEvent.submit
      [("0x0", 5), ("1x0", 4), ("2x0", 3), ("3x0", 2), ("4x0", 1)]]) ≤ 2 :=
  claimC4_concurrency_bound
    [AEvent.submit [("0x0", 5), ("1x0", 4), ("2x0", 3), ("3x0", 2), ("4x0", 1)]]
    (by decide)

/-- C10: within one panorama load (no reset event), the per-tile heap entries
carry pairwise distinct tile ids — each tile id is enqueued, hence fetched, at
most once over all refresh cycles — and an id recorded in `props.tiles` stays
recorded across every further submit or settlement, so later refreshes listing
the same tile never create a new task; only the reset of a new `loadTexture`
clears the record. -/
theorem claimC10_single_fetch (evs : List AEvent)
    (h : ∀ e ∈ evs, e ≠ AEvent.reset) :
    ((run evs).heap.map (·.2.id)).Nodup
    ∧ (∀ i ∈ (run evs).tilesProp, ∀ e, e ≠ AEvent.reset →
        i ∈ (stepEv (run evs) e).tilesProp)
    ∧ (stepEv (run evs) AEvent.reset).tilesProp = [] := by
  refine ⟨(InvNR_run evs h).idsNd, ?_, rfl⟩
  intro i hi e he
  exact stepEv_tilesProp_mono he i hi

theorem claimC10_witness :
    ((run [AEvent.submit [("0x0", 1)], AEvent.settle 0 false,
        AEvent.submit [("0x0", 1)]]).heap.map (·.2.id)).Nodup
    ∧ (∀ i ∈ (run [AEvent.submit [("0x0", 1)], AEvent.settle 0 false,
          AEvent.submit [("0x0", 1)]]).tilesProp, ∀ e, e ≠ AEvent.reset →
        i ∈ (stepEv (run [AEvent.submit [("0x0", 1)], AEvent.settle 0 false,
          AEvent.submit [("0x0", 1)]]) e).tilesProp)
    ∧ (stepEv (run [AEvent.submit [("0x0", 1)], AEvent.settle 0 false,
        AEvent.submit [("0x0", 1)]]) AEvent.reset).tilesProp = [] :=
  claimC10_single_fetch
    [AEvent.submit [("0x0", 1)], AEvent.settle 0 false, AEvent.submit [("0x0", 1)]]
    (by decide)

end PSVTiles

namespace PSVTiles

/-- C5: the task the start loop picks when a slot is free is a PENDING task of
strictly positive priority, maximal among all such tasks; when no pending task
has positive priority, `start` changes nothing; a pending task whose priority
is ≤ 0 at selection time is never touched by the start loop; and with a free
slot the loop indeed proceeds by starting the selected task. -/
theorem claimC5_priority_selection (s : QState) :
    (∀ rt, selectNext s = some rt →
      rt.1 ∈ s.tasks ∧ hget s.heap rt.1 = some rt.2
      ∧ rt.2.status = Status.pending ∧ 0 < rt.2.priority
      ∧ ∀ r t, r ∈ s.tasks → hget s.heap r = some t → t.status = Status.pending →
          0 < t.priority → t.priority ≤ rt.2.priority)
    ∧ ((∀ r t, r ∈ s.tasks → hget s.heap r = some t →
        ¬(t.status = Status.pending ∧ 0 < t.priority)) → qstart s = s)
    ∧ (∀ r t, hget s.heap r = some t → t.priority ≤ 0 →
        hget (qstart s).heap r = some t)
    ∧ (∀ rt, s.runningTasks.length < s.concurency → selectNext s = some rt →
        qstart s = qstartAux s.tasks.length (startStep s rt)) := by
  refine ⟨?_, ?_, ?_, ?_⟩
  · intro rt hsel
    obtain ⟨h1, h2, h3, h4⟩ := selectNext_spec hsel
    exact ⟨h1, h2, h3, h4, selectNext_max hsel⟩
  · exact qstart_eq_self
  · intro r t hg hp
    exact qstartAux_ineligible (s.tasks.length + 1) s r t hg hp
  · intro rt hlt hsel
    rw [qstart, qstartAux, if_neg (not_le.2 hlt), hsel]

theorem claimC5_witness :
    (∀ rt, selectNext (run [AEvent.submit [("a", 5), ("b", 4), ("c", 3)]]) = some rt →
      rt.1 ∈ (run [AEvent.submit [("a", 5), ("b", 4), ("c", 3)]]).tasks
      ∧ hget (run [AEvent.submit [("a", 5), ("b", 4), ("c", 3)]]).heap rt.1 = some rt.2
      ∧ rt.2.status = Status.pending ∧ 0 < rt.2.priority
      ∧ ∀ r t, r ∈ (run [AEvent.submit [("a", 5), ("b", 4), ("c", 3)]]).tasks →
          hget (run [AEvent.submit [("a", 5), ("b", 4), ("c", 3)]]).heap r = some t →
          t.status = Status.pending → 0 < t.priority → t.priority ≤ rt.2.priority)
    ∧ ((∀ r t, r ∈ (run [AEvent.submit [("a", 5), ("b", 4), ("c", 3)]]).tasks →
        hget (run [AEvent.submit [("a", 5), ("b", 4), ("c", 3)]]).heap r = some t →
        ¬(t.status = Status.pending ∧ 0 < t.priority)) →
        qstart (run [AEvent.submit [("a", 5), ("b", 4), ("c", 3)]])
          = run [AEvent.submit [("a", 5), ("b", 4), ("c", 3)]])
    ∧ (∀ r t, hget (run [AEvent.submit [("a", 5), ("b", 4), ("c", 3)]]).heap r = some t →
        t.priority ≤ 0 →
        hget (qstart (run [AEvent.submit [("a", 5), ("b", 4), ("c", 3)]])).heap r = some t)
    ∧ (∀ rt, (run [AEvent.submit [("a", 5), ("b", 4), ("c", 3)]]).runningTasks.length
          < (run [AEvent.submit [("a", 5), ("b", 4), ("c", 3)]]).concurency →
        selectNext (run [AEvent.submit [("a", 5), ("b", 4), ("c", 3)]]) = some rt →
        qstart (run [AEvent.submit [("a", 5), ("b", 4), ("c", 3)]])
          = qstartAux (run [AEvent.submit [("a", 5), ("b", 4), ("c", 3)]]).tasks.length
              (startStep (run [AEvent.submit [("a", 5), ("b", 4), ("c", 3)]]) rt)) :=
  claimC5_priority_selection (run [AEvent.submit [("a", 5), ("b", 4), ("c", 3)]])

end PSVTiles

namespace PSVTiles

/-- C6: at every reachable state the queue holds at most one task per tile id
(the ids listed in `queue.tasks` are pairwise distinct), and submitting a tile
already recorded in `props.tiles` — twice within one refresh here, covering
also the across-refresh case since the record persists — creates no heap entry
for its id and only updates the existing task's priority to the last submitted
value. -/
theorem claimC6_dedup (evs : List AEvent) :
    (taskIds (run evs)).Nodup
    ∧ ∀ (i : String) (p1 p2 : Int) (r : Nat) (t : TaskObj),
        r ∈ (run evs).tasks → hget (run evs).heap r = some t → t.id = i →
        i ∈ (run evs).tilesProp →
        heapCountId (applySubmit (run evs) [(i, p1), (i, p2)]) i
            = heapCountId (run evs) i
        ∧ ∃ t', hget (applySubmit (run evs) [(i, p1), (i, p2)]).heap r = some t'
            ∧ t'.id = i ∧ t'.priority = p2
            ∧ r ∈ (applySubmit (run evs) [(i, p1), (i, p2)]).tasks := by
  refine ⟨(Inv_run evs).tIdsNd, ?_⟩
  intro i p1 p2 r t hr hg hid hmem
  constructor
  · apply heapCountId_congr
    apply (applySubmit_known ?_).1
    intro ti hti
    have : ti = (i, p1) ∨ ti = (i, p2) := by simpa using hti
    rcases this with h | h <;> rw [h] <;> exact hmem
  · exact applySubmit_dup_priority (Inv_run evs) hr hg hid hmem p1 p2

theorem claimC6_witness :
    (taskIds (run [AEvent.submit [("a", 3)]])).Nodup
    ∧ (heapCountId (applySubmit (run [AEvent.submit [("a", 3)]]) [("a", 7), ("a", 9)]) "a"
        = heapCountId (run [AEvent.submit [("a", 3)]]) "a")
    ∧ ∃ t', hget (applySubmit (run [AEvent.submit [("a", 3)]]) [("a", 7), ("a", 9)]).heap 0
          = some t'
        ∧ t'.id = "a" ∧ t'.priority = 9
        ∧ 0 ∈ (applySubmit (run [AEvent.submit [("a", 3)]]) [("a", 7), ("a", 9)]).tasks :=
  ⟨(claimC6_dedup [AEvent.submit [("a", 3)]]).1,
   ((claimC6_dedup [AEvent.submit [("a", 3)]]).2 "a" 7 9 0 ⟨"a", 3, Status.running⟩
     (by decide) (by decide) rfl (by decide)).1,
   ((claimC6_dedup [AEvent.submit [("a", 3)]]).2 "a" 7 9 0 ⟨"a", 3, Status.running⟩
     (by decide) (by decide) rfl (by decide)).2⟩

end PSVTiles

namespace PSVTiles

/-- C8: `clear()` empties both maps and cancels every previously-known task
(the maps emptied before the cancellations run, so the state the cancellations
see is the cleared one); a cancelled task is never brought back to RUNNING by
any later event — its completion callback cannot restart cancelled work; and
`clear()` followed by a submit of an empty candidate list leaves the known set
empty and the running count 0. -/
theorem claimC8_clear (evs : List AEvent) :
    ((qclear (run evs)).tasks = [] ∧ (qclear (run evs)).runningTasks = []
      ∧ ∀ r ∈ (run evs).tasks, statusAt (qclear (run evs)) r = some Status.cancelled)
    ∧ (∀ r t, hget (run evs).heap r = some t → t.status = Status.cancelled →
        ∀ e, statusAt (stepEv (run evs) e) r ≠ some Status.running)
    ∧ (∀ s : QState, applySubmit (stepEv s AEvent.reset) [] = stepEv s AEvent.reset
        ∧ (stepEv s AEvent.reset).tasks = []
        ∧ (stepEv s AEvent.reset).runningTasks = []
        ∧ (applySubmit (stepEv s AEvent.reset) []).runningTasks.length = 0) := by
  refine ⟨⟨rfl, rfl, ?_⟩, ?_, ?_⟩
  · intro r hr
    obtain ⟨t, ht⟩ := (Inv_run evs).taskSubH r hr
    show (hget ((run evs).tasks.foldl
        (fun h k => hmodify h k fun u => { u with status := Status.cancelled })
        (run evs).heap) r).map (·.status) = some Status.cancelled
    rw [@hget_foldMod_mem (fun u => { u with status := Status.cancelled })
      (fun u => rfl) r (run evs).tasks (run evs).heap hr, ht]
    rfl
  · intro r t hg hc e hcontra
    rcases stepEv_no_restart (Inv_run evs) hg hc e with h | h <;>
      (rw [h] at hcontra; exact absurd (Option.some.inj hcontra) (by simp))
  · intro s
    have hnil : applySubmit (stepEv s AEvent.reset) [] = stepEv s AEvent.reset :=
      applySubmit_nil_of_tasks_nil rfl
    refine ⟨hnil, rfl, rfl, ?_⟩
    rw [hnil]
    rfl

theorem claimC8_witness :
    ((qclear (run [AEvent.submit [("a", 2)]])).tasks = []
      ∧ (qclear (run [AEvent.submit [("a", 2)]])).runningTasks = []
      ∧ ∀ r ∈ (run [AEvent.submit [("a", 2)]]).tasks,
          statusAt (qclear (run [AEvent.submit [("a", 2)]])) r = some Status.cancelled)
    ∧ (statusAt (stepEv (run [AEvent.submit [("a", 2)], AEvent.reset])
          (AEvent.settle 0 true)) 0 ≠ some Status.running)
    ∧ (applySubmit (stepEv initState AEvent.reset) [] = stepEv initState AEvent.reset
        ∧ (stepEv initState AEvent.reset).tasks = []
        ∧ (stepEv initState AEvent.reset).runningTasks = []
        ∧ (applySubmit (stepEv initState AEvent.reset) []).runningTasks.length = 0) :=
  ⟨(claimC8_clear [AEvent.submit [("a", 2)]]).1,
   (claimC8_clear [AEvent.submit [("a", 2)], AEvent.reset]).2.1 0
     ⟨"a", 2, Status.cancelled⟩ (by decide) rfl (AEvent.settle 0 true),
   (claimC8_clear []).2.2 initState⟩

end PSVTiles

namespace PSVTiles

/-- C2 counterexample: CANCELLED is not terminal and a cancelled task's late
fetch result is not discarded.  Submit one tile, reset (which cancels the
task), then let the abandoned fetch settle: the task's status is overwritten
from CANCELLED to DONE and the draw side effect is performed against the new
configuration's state (`drawLog` records it). -/
theorem claimC2_counterexample :
    statusAt (run [AEvent.submit [("0x0", 1)], AEvent.reset]) 0 = some Status.cancelled
    ∧ statusAt (run [AEvent.submit [("0x0", 1)], AEvent.reset, AEvent.settle 0 true]) 0
        = some Status.done
    ∧ (run [AEvent.submit [("0x0", 1)], AEvent.reset]).drawLog = []
    ∧ (run [AEvent.submit [("0x0", 1)], AEvent.reset, AEvent.settle 0 true]).drawLog
        = [("0x0", true)] := by
  refine ⟨by decide, by decide, by decide, by decide⟩

/-- C2 amended: DONE and FAILED are terminal — the task object is never
touched again by any event; a CANCELLED task with no outstanding fetch is
likewise never touched; but a CANCELLED task whose fetch is still in flight is
settled to DONE when the fetch arrives and the draw is performed (recorded in
`drawLog`), not discarded — `Task.cancel` does not abort the fetch and
`__drawTile`'s completion handler does not re-check the status. -/
theorem claimC2_terminal_statuses (evs : List AEvent) :
    (∀ r t, hget (run evs).heap r = some t →
      t.status = Status.done ∨ t.status = Status.error →
      ∀ e, hget (stepEv (run evs) e).heap r = some t)
    ∧ (∀ r t, hget (run evs).heap r = some t → t.status = Status.cancelled →
        r ∉ (run evs).inflight → ∀ e, hget (stepEv (run evs) e).heap r = some t)
    ∧ (∀ r t ok, r ∈ (run evs).inflight → hget (run evs).heap r = some t →
        (settle (run evs) r ok).drawLog = (run evs).drawLog ++ [(t.id, ok)]
        ∧ statusAt (settle (run evs) r ok) r = some Status.done) := by
  refine ⟨?_, ?_, ?_⟩
  · intro r t hg hst e
    have hni : r ∉ (run evs).inflight := by
      intro hmem
      rcases (Inv_run evs).inflStat r hmem t hg with h | h <;>
        rcases hst with h2 | h2 <;> rw [h2] at h <;> exact absurd h (by simp)
    refine stepEv_stable (Inv_run evs) hg ?_ ?_ hni e
    · rcases hst with h2 | h2 <;> rw [h2] <;> simp
    · rcases hst with h2 | h2 <;> rw [h2] <;> simp
  · intro r t hg hc hni e
    exact stepEv_stable (Inv_run evs) hg (by rw [hc]; simp) (by rw [hc]; simp) hni e
  · intro r t ok hinfl hg
    obtain ⟨h1, h2, _, _, _⟩ := settle_char hinfl hg ok
    exact ⟨h1, h2⟩

theorem claimC2_witness :
    (∀ r t, hget (run [AEvent.submit [("a", 1)], AEvent.settle 0 true]).heap r = some t →
      t.status = Status.done ∨ t.status = Status.error →
      ∀ e, hget (stepEv (run [AEvent.submit [("a", 1)], AEvent.settle 0 true]) e).heap r
        = some t)
    ∧ (∀ r t, hget (run [AEvent.submit [("a", 1)], AEvent.settle 0 true]).heap r = some t →
        t.status = Status.cancelled →
        r ∉ (run [AEvent.submit [("a", 1)], AEvent.settle 0 true]).inflight →
        ∀ e, hget (stepEv (run [AEvent.submit [("a", 1)], AEvent.settle 0 true]) e).heap r
          = some t)
    ∧ (∀ r t ok, r ∈ (run [AEvent.submit [("a", 1)], AEvent.settle 0 true]).inflight →
        hget (run [AEvent.submit [("a", 1)], AEvent.settle 0 true]).heap r = some t →
        (settle (run [AEvent.submit [("a", 1)], AEvent.settle 0 true]) r ok).drawLog
          = (run [AEvent.submit [("a", 1)], AEvent.settle 0 true]).drawLog ++ [(t.id, ok)]
        ∧ statusAt (settle (run [AEvent.submit [("a", 1)], AEvent.settle 0 true]) r ok) r
          = some Status.done) :=
  claimC2_terminal_statuses [AEvent.submit [("a", 1)], AEvent.settle 0 true]

end PSVTiles

namespace PSVTiles

/-- C1 counterexample: a failed fetch does not produce a Failed/ERROR status
and the tile is not retried.  Submit one tile and let its fetch fail: the task
settles DONE (the catch draws the placeholder and the promise fulfils), the
draw is recorded with failure, the queue map is emptied — but `props.tiles`
still records the tile, so resubmitting the same tile creates no new task and
no new fetch. -/
theorem claimC1_counterexample :
    statusAt (run [AEvent.submit [("0x0", 1)], AEvent.settle 0 false]) 0 = some Status.done
    ∧ (run [AEvent.submit [("0x0", 1)], AEvent.settle 0 false]).drawLog = [("0x0", false)]
    ∧ (run [AEvent.submit [("0x0", 1)], AEvent.settle 0 false]).tasks = []
    ∧ (run [AEvent.submit [("0x0", 1)], AEvent.settle 0 false]).tilesProp = ["0x0"]
    ∧ (run [AEvent.submit [("0x0", 1)], AEvent.settle 0 false,
        AEvent.submit [("0x0", 1)]]).heap
      = (run [AEvent.submit [("0x0", 1)], AEvent.settle 0 false]).heap
    ∧ (run [AEvent.submit [("0x0", 1)], AEvent.settle 0 false,
        AEvent.submit [("0x0", 1)]]).tasks = [] := by
  decide

/-- C1 amended: when a tile's fetch fails, the catch in `__drawTile` draws the
placeholder (the draw is recorded with the failure flag) and the task promise
fulfils, so the task settles in the terminal DONE status — never an
error status; its id is removed from the queue's task and running maps, but
`props.tiles` keeps the tile recorded, so a later refresh that lists the same
tile updates no heap entry and creates no new task: the fetch is never
retried within the same panorama load. -/
theorem claimC1_failed_fetch (evs : List AEvent) (hnr : ∀ e ∈ evs, e ≠ AEvent.reset)
    (r : Nat) (t : TaskObj) (hinfl : r ∈ (run evs).inflight)
    (hg : hget (run evs).heap r = some t) :
    (settle (run evs) r false).drawLog = (run evs).drawLog ++ [(t.id, false)]
    ∧ statusAt (settle (run evs) r false) r = some Status.done
    ∧ (∀ r' ∈ (settle (run evs) r false).tasks,
        idAt (settle (run evs) r false) r' ≠ some t.id)
    ∧ t.id ∉ (settle (run evs) r false).runningTasks
    ∧ t.id ∈ (settle (run evs) r false).tilesProp
    ∧ ∀ p : Int, (applySubmit (settle (run evs) r false) [(t.id, p)]).heap.map (·.2.id)
        = (settle (run evs) r false).heap.map (·.2.id) := by
  have hNR := InvNR_run evs hnr
  obtain ⟨hdl, hst, htk, hids, htp⟩ := settle_char hinfl hg false
  have hrtmem : (r, t) ∈ (run evs).heap := hget_mem hg
  have hidtp : t.id ∈ (settle (run evs) r false).tilesProp := by
    rw [htp]
    exact hNR.idsSub t.id (List.mem_map.2 ⟨(r, t), hrtmem, rfl⟩)
  refine ⟨hdl, hst, ?_, ?_, hidtp, ?_⟩
  · intro r' hr'
    rw [hids r']
    rw [htk] at hr'
    have := (List.mem_filter.1 hr').2
    simpa using this
  · have hset : settle (run evs) r false = qstart { run evs with
        drawLog := (run evs).drawLog ++ [(t.id, false)]
        heap := hmodify (run evs).heap r (fun u => { u with status := Status.done })
        inflight := (run evs).inflight.erase r
        tasks := (run evs).tasks.filter (fun r' => !(idAt (run evs) r' == some t.id))
        runningTasks := (run evs).runningTasks.filter (fun i => i != t.id) } := by
      rw [settle, if_pos hinfl, hg]
    intro hmem
    rw [hset, qstart] at hmem
    rcases qstartAux_rt_from _ _ t.id hmem with h1 | h1
    · have h2 : t.id ∈ (run evs).runningTasks.filter (fun i => i != t.id) := h1
      have := (List.mem_filter.1 h2).2
      simp at this
    · obtain ⟨p, hp, hpid, hpst⟩ := h1
      have hp2 : p ∈ hmodify (run evs).heap r (fun u => { u with status := Status.done }) := hp
      obtain ⟨q, hq, hpeq⟩ := mem_hmodify.1 hp2
      by_cases hq1 : q.1 = r
      · rw [if_pos hq1] at hpeq
        rw [hpeq] at hpst
        simp at hpst
      · rw [if_neg hq1] at hpeq
        have hqid : q.2.id = t.id := by rw [← hpid, hpeq]
        have heq : q = (r, t) := List.inj_on_of_nodup_map hNR.idsNd hq hrtmem hqid
        exact hq1 (congrArg Prod.fst heq)
  · intro p
    apply (applySubmit_known ?_).1
    intro ti hti
    have : ti = (t.id, p) := by simpa using hti
    rw [this]
    exact hidtp

theorem claimC1_witness :
    (settle (run [AEvent.submit [("0x0", 1)]]) 0 false).drawLog
      = (run [AEvent.submit [("0x0", 1)]]).drawLog ++ [("0x0", false)]
    ∧ statusAt (settle (run [AEvent.submit [("0x0", 1)]]) 0 false) 0 = some Status.done
    ∧ (∀ r' ∈ (settle (run [AEvent.submit [("0x0", 1)]]) 0 false).tasks,
        idAt (settle (run [AEvent.submit [("0x0", 1)]]) 0 false) r' ≠ some "0x0")
    ∧ "0x0" ∉ (settle (run [AEvent.submit [("0x0", 1)]]) 0 false).runningTasks
    ∧ "0x0" ∈ (settle (run [AEvent.submit [("0x0", 1)]]) 0 false).tilesProp
    ∧ ∀ p : Int, (applySubmit (settle (run [AEvent.submit [("0x0", 1)]]) 0 false)
          [("0x0", p)]).heap.map (·.2.id)
        = (settle (run [AEvent.submit [("0x0", 1)]]) 0 false).heap.map (·.2.id) :=
  claimC1_failed_fetch [AEvent.submit [("0x0", 1)]] (by decide) 0
    ⟨"0x0", 1, Status.running⟩ (by decide) (by decide)

end PSVTiles
